import Mathlib

/-!
Verification development for the yggit stacked-branch workflow manager.

The Rust sources are shallowly embedded as executable Lean definitions:

* `src/parser.rs` : `commits_to_string`, `instruction_from_string_with_main_branch`
  (the plan renderer and plan parser, including the two regexes, modelled
  character-by-character with the leftmost-first preference semantics of the
  Rust `regex` crate);
* `src/core.rs` : `save_note` (notes store, modelled over a map from commit id
  to note) and `push_from_notes` (DAG materializer and push reconciler, with
  the git gateway modelled as an oracle of query functions and the effects as
  an explicit call trace);
* `src/github/integration.rs` : `GitHubIntegration::handle_integration`
  (review synchronizer, gateway modelled as an oracle, effects as a trace);
* `src/commands/push.rs` : `Push::execute` and its inline
  `handle_github_integration`, with the editor result as an oracle.

Strings are modelled by Lean `String` (a list of characters); `git2::Oid` is
modelled by its 40-character lowercase hex rendering, which is how the program
itself prints and re-parses ids.  Rust `char::is_whitespace` / regex `\s` are
modelled by `Char.isWhitespace` (the ASCII whitespace relevant to plan files).
-/

/-! ## Character-level utilities -/

def isWs (c : Char) : Bool := c.isWhitespace

/-- Length of the maximal whitespace run at the front of a character list
(the greedy match of a leading regex item of whitespace characters). -/
def wsLen (cs : List Char) : Nat := (cs.takeWhile isWs).length

/-- Drop leading whitespace characters. -/
def ltrim (cs : List Char) : List Char := cs.dropWhile isWs

/-- Drop trailing whitespace characters. -/
def rtrim (cs : List Char) : List Char := (cs.reverse.dropWhile isWs).reverse

/-- Rust `str::trim` on a list of characters. -/
def trimChars (cs : List Char) : List Char := ltrim (rtrim cs)

/-- The regex character class `[0-9a-fA-F]`. -/
def isHexDigit (c : Char) : Bool :=
  (('0' ≤ c) && (c ≤ '9')) || (('a' ≤ c) && (c ≤ 'f')) || (('A' ≤ c) && (c ≤ 'F'))

/-- Lowercase hex digit (`git2::Oid` prints ids in lowercase). -/
def isLowHex (c : Char) : Bool :=
  (('0' ≤ c) && (c ≤ '9')) || (('a' ≤ c) && (c ≤ 'f'))

/-- Map an uppercase hex digit to lowercase; `Oid::from_str` is
case-insensitive and `Oid` prints in lowercase. -/
def hexLower (c : Char) : Char :=
  if (('A' ≤ c) && (c ≤ 'F')) then Char.ofNat (c.toNat + 32) else c

/-- Rust `str::lines` on a list of characters: split at each newline, with a
final trailing newline producing no extra empty line.  (Rust also strips a
trailing carriage return per line; in the parser every line is immediately
trimmed, which subsumes that.) -/
def rustLines : List Char → List (List Char)
  | [] => []
  | '\n' :: rest => [] :: rustLines rest
  | c :: rest =>
    match rustLines rest with
    | [] => [[c]]
    | l :: ls => (c :: l) :: ls

/-! ## Plan data model (src/parser.rs) -/

/-- `parser.rs` `Target`. -/
structure Target where
  origin : Option String
  branch : String
  parent_branch : Option String
deriving DecidableEq

/-- `parser.rs` `Commit`; `hash` models the `git2::Oid` as its 40-character
lowercase hex string. -/
structure Commit where
  hash : String
  title : String
  target : Option Target
deriving DecidableEq

/-! ## The commit-header regex

`^(?P<hash>[0-9a-fA-F]{40})\s+(?P<title>.+)$` applied to a whole line. -/

/-- Full-line match of the commit-header regex, returning the `hash` capture
(as the parsed `Oid`, i.e. lowercased) and the `title` capture.  The regex is
anchored on both sides; `\s+` is greedy, and `.+` needs at least one
character, so the title is the remainder after the maximal whitespace run
(backing off one whitespace character when that run reaches the end). -/
def headerCaps (cs : List Char) : Option (String × String) :=
  let h := cs.take 40
  if h.length = 40 && h.all isHexDigit then
    let rest := cs.drop 40
    let w := wsLen rest
    if w = 0 then none
    else if (rest.drop w).isEmpty then
      if 2 ≤ w then some (String.mk (h.map hexLower), String.mk (rest.drop (w - 1)))
      else none
    else some (String.mk (h.map hexLower), String.mk (rest.drop w))
  else none

/-! ## The target regex

`^->\s*(?:(?P<origin>[^:]+):)?(?P<branch>[^=]+?)(?:\s*=>\s*(?P<parent>.+))?$`
applied to a whole line, with the Rust regex crate's leftmost-first
(Perl-preference) semantics:

* the leading `\s*` is greedy, retried from longest to shortest;
* the optional origin group is preferred present; `[^:]+` greedy followed by
  a literal colon forces the origin to be the text before the first colon;
* `[^=]+?` is lazy: the branch grows from one character upward;
* the optional parent group is preferred present; inside it both `\s*` are
  greedy and `.+` takes the rest of the line.
-/

/-- Full match of the parent part `\s*=>\s*(?P<parent>.+)` against the whole
remainder `r`, returning the raw `parent` capture.  Because `=` is not a
whitespace character, only the maximal leading whitespace run can be followed
by the literal `=>`; after it, `.+` needs at least one character, backing off
one whitespace character when the greedy inner `\s*` reaches the end. -/
def parentCaps (r : List Char) : Option (List Char) :=
  let r1 := r.drop (wsLen r)
  if r1.take 2 = ['=', '>'] then
    let r2 := r1.drop 2
    if r2.isEmpty then none
    else
      let w2 := wsLen r2
      if (r2.drop w2).isEmpty then some (r2.drop (r2.length - 1))
      else some (r2.drop w2)
  else none

/-- Lazy branch plus optional parent part against the whole remainder `v`:
the branch capture `[^=]+?` takes `n` characters for the smallest `n ≥ 1`
(never crossing an `=`) such that the rest is empty (parent absent) or is a
full match of the parent part (parent present). -/
def branchParent (v : List Char) : Option (List Char × Option (List Char)) :=
  (List.range (v.takeWhile (fun c => c ≠ '=')).length).findSome? (fun k =>
    let n := k + 1
    let r := v.drop n
    if r.isEmpty then some (v.take n, none)
    else (parentCaps r).map (fun p => (v.take n, some p)))

/-- The optional origin group `(?:(?P<origin>[^:]+):)?` preferred present:
`[^:]+` greedy then a literal colon means the origin capture is exactly the
(nonempty) text before the first colon, when there is one. -/
def originSplit (u : List Char) : Option (List Char × List Char) :=
  let o := u.takeWhile (fun c => c ≠ ':')
  if o.isEmpty then none
  else if o.length < u.length then some (o, u.drop (o.length + 1))
  else none

/-- Full-line match of the target regex, returning the `origin` capture (not
trimmed, as in the source), and the `branch` and `parent` captures (trimmed,
as in the source).  The outer search tries the greedy leading `\s*` from
longest to shortest; at each length the origin-present alternative is
preferred over origin-absent. -/
def targetCaps (cs : List Char) : Option (Option String × String × Option String) :=
  if cs.take 2 = ['-', '>'] then
    let t := cs.drop 2
    let wmax := wsLen t
    ((List.range (wmax + 1)).findSome? (fun d =>
      let u := t.drop (wmax - d)
      match originSplit u with
      | some (o, v) =>
        match branchParent v with
        | some bp => some (some o, bp.1, bp.2)
        | none => (branchParent u).map (fun bp => (none, bp.1, bp.2))
      | none => (branchParent u).map (fun bp => (none, bp.1, bp.2)))).map
      (fun obp =>
        (obp.1.map String.mk, String.mk (trimChars obp.2.1),
          obp.2.2.map (fun q => String.mk (trimChars q))))
  else none

/-! ## The parser loop (src/parser.rs, instruction_from_string_with_main_branch) -/

/-- The skip condition of the parser loop: blank lines and `#` comments. -/
def skipLine (l : List Char) : Bool := l.isEmpty || l.take 1 = ['#']

/-- The parser's accumulation loop over the (already trimmed) lines, carrying
the `last_branch` state used for implicit-parent inference.  A commit header
with a following line that starts with `->` and fully matches the target
regex consumes that line; a following `->` line that fails the regex is left
in place (it is skipped on the next iteration), and the commit keeps no
target. -/
def goLines (mainB : String) : List (List Char) → Option String → List Commit
  | [], _ => []
  | [l], _ =>
    if skipLine l then []
    else
      match headerCaps l with
      | none => []
      | some ht => [⟨ht.1, ht.2, none⟩]
  | l :: next :: rest2, last =>
    if skipLine l then goLines mainB (next :: rest2) last
    else
      match headerCaps l with
      | none => goLines mainB (next :: rest2) last
      | some ht =>
        if next.take 2 = ['-', '>'] then
          match targetCaps next with
          | some obp =>
            ⟨ht.1, ht.2,
              some ⟨obp.1, obp.2.1, some (obp.2.2.getD (last.getD mainB))⟩⟩ ::
              goLines mainB rest2 (some obp.2.1)
          | none => ⟨ht.1, ht.2, none⟩ :: goLines mainB (next :: rest2) last
        else ⟨ht.1, ht.2, none⟩ :: goLines mainB (next :: rest2) last

/-- `parser.rs` `instruction_from_string_with_main_branch`. -/
def instruction_from_string_with_main_branch (input : String)
    (main_branch_name : String) : Option (List Commit) :=
  let lines := (rustLines input.data).map trimChars
  let commits := goLines main_branch_name lines none
  if commits.isEmpty then none else some commits

/-- `parser.rs` `instruction_from_string`. -/
def instruction_from_string (input : String) : Option (List Commit) :=
  instruction_from_string_with_main_branch input "main"

/-! ## Raw target captures and the implicit-parent inference chain

`goRaw` re-runs the parser's scan, collecting for each consumed target line
its raw regex captures (origin, branch, and the parent exactly as written,
`none` when the `=> parent` part is omitted in the source).  `inferChain` is
the inference step of the loop (lines 94-100 of parser.rs) isolated as a pure
function on that raw list. -/

def goRaw : List (List Char) → List (Option String × String × Option String)
  | [] => []
  | [_] => []
  | l :: next :: rest2 =>
    if skipLine l then goRaw (next :: rest2)
    else
      match headerCaps l with
      | none => goRaw (next :: rest2)
      | some _ =>
        if next.take 2 = ['-', '>'] then
          match targetCaps next with
          | some obp => obp :: goRaw rest2
          | none => goRaw (next :: rest2)
        else goRaw (next :: rest2)

def inferChain (mainB : String) :
    Option String → List (Option String × String × Option String) → List Target
  | _, [] => []
  | last, obp :: rest =>
    ⟨obp.1, obp.2.1, some (obp.2.2.getD (last.getD mainB))⟩ ::
      inferChain mainB (some obp.2.1) rest

/-- The targets of a parsed plan, in plan order. -/
def targetsOf (cs : List Commit) : List Target := cs.filterMap Commit.target

/-! ## Plan renderer (src/parser.rs, commits_to_string) -/

/-- `core.rs` `Push` (the persisted push target of a note). -/
structure Push where
  origin : Option String
  branch : String
  parent_branch : Option String
deriving DecidableEq

/-- `core.rs` `Note`. -/
structure Note where
  push : Option Push
deriving DecidableEq

/-- `git.rs` `EnhancedCommit<Note>`; the id models the `Oid` as its
40-character lowercase hex string. -/
structure EnhancedCommit where
  id : String
  title : String
  description : Option String
  note : Option Note
deriving DecidableEq

/-- The per-commit output of `commits_to_string`: the header line, then the
target line in one of its four shapes when the note carries a push, then the
separating blank line. -/
def renderCommit (c : EnhancedCommit) : String :=
  let s := c.id ++ " " ++ c.title ++ "\n"
  match c.note with
  | none => s
  | some n =>
    let s :=
      match n.push with
      | none => s
      | some p =>
        match p.origin, p.parent_branch with
        | some origin, some parent =>
          s ++ "-> " ++ origin ++ ":" ++ p.branch ++ " => " ++ parent ++ "\n"
        | some origin, none => s ++ "-> " ++ origin ++ ":" ++ p.branch ++ "\n"
        | none, some parent => s ++ "-> " ++ p.branch ++ " => " ++ parent ++ "\n"
        | none, none => s ++ "-> " ++ p.branch ++ "\n"
    match n.push with
    | some _ => s ++ "\n"
    | none => s

/-- `parser.rs` `commits_to_string`. -/
def commits_to_string (commits : List EnhancedCommit) : String :=
  commits.foldl (fun output c => output ++ renderCommit c) ""

/-! ## Notes store (src/core.rs, save_note)

The git notes table is modelled as a map from commit id to the stored note;
`git.delete_note` and `git.set_note` become pointwise updates of the map. -/

def save_note (git_notes : String → Option Note) (commits : List Commit) :
    String → Option Note :=
  commits.foldl
    (fun notes commit =>
      match commit.target with
      | none => fun id => if id = commit.hash then none else notes id
      | some t => fun id =>
          if id = commit.hash then some ⟨some ⟨t.origin, t.branch, t.parent_branch⟩⟩
          else notes id)
    git_notes

/-! ## DAG materializer and push reconciler (src/core.rs, push_from_notes)

The git gateway is modelled as an oracle of query functions (the state of the
repository and remotes during the push phase); the effects are returned as
call traces: `dagCalls` is the trace of `set_branch_to_commit_with_parent`
calls of the first loop, `pushLoop` the trace of `push_force` calls of the
second loop, which returns early (aborting the whole push phase) when the
locally cached remote head differs from the freshly observed remote head. -/

structure GitEnv where
  default_upstream : String
  find_local_remote_head : String → String → Option String
  find_remote_head : String → String → Option String
  head_of : String → Option String

/-- The push note of a commit, when both the note and its push are present
(the `let ... else continue` destructuring of both loops). -/
def pushNote (c : EnhancedCommit) : Option Push :=
  match c.note with
  | some n => n.push
  | none => none

def dagCalls (commits : List EnhancedCommit) : List (String × String × Option String) :=
  commits.filterMap (fun c => (pushNote c).map (fun p => (p.branch, c.id, p.parent_branch)))

def pushLoop (env : GitEnv) : List EnhancedCommit → List (String × String)
  | [] => []
  | c :: rest =>
    match pushNote c with
    | none => pushLoop env rest
    | some p =>
      let origin := p.origin.getD env.default_upstream
      if env.find_local_remote_head origin p.branch ≠ env.find_remote_head origin p.branch then
        []
      else if env.head_of p.branch = env.find_remote_head origin p.branch then
        pushLoop env rest
      else (origin, p.branch) :: pushLoop env rest

/-- `core.rs` `push_from_notes`: the branch-materialization calls of the
first loop followed by the force-push calls of the second loop. -/
def push_from_notes (env : GitEnv) (commits : List EnhancedCommit) :
    List (String × String × Option String) × List (String × String) :=
  (dagCalls commits, pushLoop env commits)

/-! ## Review synchronizer (src/github/integration.rs)

`BranchState` is `github/types.rs`; the `gh` CLI gateway (`GitHubCli`) is
modelled as an oracle giving, per branch, whether a PR exists and the outcome
of create/retarget subprocess calls.  The hash maps are modelled as
association lists; the effects are returned as a trace of gateway calls plus
the success flag of the `Result`. -/

structure BranchState where
  branch : String
  target_branch : String
  origin : Option String
  commit_title : Option String
  commit_description : Option String
deriving DecidableEq

inductive RCall
  | create (branch target title body : String)
  | retarget (branch newBase : String)
deriving DecidableEq

inductive CreateOutcome
  | ok
  | alreadyExists
  | otherError
deriving DecidableEq

inductive RetargetOutcome
  | ok
  | notFound
  | otherError
deriving DecidableEq

structure ReviewEnv where
  available : Bool
  prExists : String → Bool
  createResult : String → CreateOutcome
  retargetResult : String → RetargetOutcome

def lookupA : List (String × α) → String → Option α
  | [], _ => none
  | e :: rest, key => if e.1 = key then some e.2 else lookupA rest key

/-- `GitHubIntegration::find_branch_with_description`: look for a pre-edit
state with the same commit title and take its description. -/
def find_branch_with_description (ab : BranchState)
    (before : List (String × BranchState)) : BranchState :=
  match before.find? (fun e => e.2.commit_title == ab.commit_title) with
  | some e => ⟨ab.branch, ab.target_branch, ab.origin, ab.commit_title,
      e.2.commit_description⟩
  | none => ab

/-- `GitHubIntegration::create_pull_request`: one `create` gateway call; a
creation error containing "already exists" is success, other errors fail. -/
def createPR (env : ReviewEnv) (bs : BranchState) : List RCall × Bool :=
  ([RCall.create bs.branch bs.target_branch (bs.commit_title.getD bs.branch)
      ((bs.commit_description.getD "") ++ "\n\n🤖 Created by yggit")],
    match env.createResult bs.branch with
    | .ok => true
    | .alreadyExists => true
    | .otherError => false)

/-- The body of the per-after-branch loop of
`GitHubIntegration::handle_integration`. -/
def handleBranch (env : ReviewEnv) (before : List (String × BranchState))
    (bn : String) (ab : BranchState) : List RCall × Bool :=
  match lookupA before bn with
  | none => createPR env (find_branch_with_description ab before)
  | some bb =>
    if bb.target_branch ≠ ab.target_branch then
      match env.retargetResult ab.branch with
      | .ok => ([RCall.retarget ab.branch ab.target_branch], true)
      | .notFound =>
        let r := createPR env ab
        (RCall.retarget ab.branch ab.target_branch :: r.1, r.2)
      | .otherError => ([RCall.retarget ab.branch ab.target_branch], false)
    else if env.prExists bn then ([], true)
    else createPR env bb

/-- The loop over the after-state; a failing branch propagates its error
(`?` in the source) and stops the loop. -/
def syncAfter (env : ReviewEnv) (before : List (String × BranchState)) :
    List (String × BranchState) → List RCall × Bool
  | [] => ([], true)
  | e :: rest =>
    let r := handleBranch env before e.1 e.2
    if r.2 then
      let r2 := syncAfter env before rest
      (r.1 ++ r2.1, r2.2)
    else r

/-- `GitHubIntegration::handle_integration`.  The loop over removed branches
(present only in the before-state) only logs and issues no gateway call, so
it contributes nothing to the trace. -/
def handle_integration (env : ReviewEnv) (before after : List (String × BranchState))
    (mainBranch : String) : List RCall × Bool :=
  if env.available = false then ([], true)
  else syncAfter env before after

/-! ## The push command (src/commands/push.rs)

`push.rs` carries its own private `BranchState` (without a description field)
and an inline `handle_github_integration` that shells out to `gh` directly.
Subprocess results are modelled by the `GhEnv` oracle; spawn failures of the
`gh` binary are not modelled (the source maps a failed PR-existence query to
`false` and continues on failed create/edit calls, so under a spawnable `gh`
the loop never aborts). -/

namespace PushCmd

structure BranchState where
  branch : String
  target_branch : String
  origin : Option String
  commit_title : Option String
deriving DecidableEq

/-- HashMap::insert over the association-list model (iteration order of the
Rust HashMap is unspecified; insertion order is used here). -/
def insertA (m : List (String × α)) (k : String) (v : α) : List (String × α) :=
  (m.filter (fun e => !(e.1 = k : Bool))) ++ [(k, v)]

/-- `push.rs` `extract_branch_state` (from commits with notes). -/
def extract_branch_state (commits : List EnhancedCommit) :
    List (String × BranchState) :=
  commits.foldl
    (fun states c =>
      match c.note with
      | none => states
      | some n =>
        match n.push with
        | none => states
        | some p =>
          insertA states p.branch
            ⟨p.branch, p.parent_branch.getD "main", p.origin, some c.title⟩)
    []

/-- `push.rs` `extract_branch_state_from_parsed` (from the parsed plan). -/
def extract_branch_state_from_parsed (commits : List Commit) :
    List (String × BranchState) :=
  commits.foldl
    (fun states c =>
      match c.target with
      | none => states
      | some t =>
        insertA states t.branch
          ⟨t.branch, t.parent_branch.getD "main", t.origin, some c.title⟩)
    []

structure GhEnv where
  available : Bool
  prExists : String → Bool
  retargetNotFound : String → Bool

/-- The `create` gateway call of `push.rs` `create_pull_request` (title from
the given state, fixed body text); `gh` errors are logged, not propagated. -/
def createCall (bs : BranchState) : RCall :=
  RCall.create bs.branch bs.target_branch (bs.commit_title.getD bs.branch)
    ("Auto-created PR for branch `" ++ bs.branch ++ "` targeting `" ++
      bs.target_branch ++ "`\n\n🤖 Created by yggit")

/-- The body of the per-after-branch loop of `push.rs`
`handle_github_integration`. -/
def handleBranch (env : GhEnv) (before : List (String × BranchState))
    (bn : String) (ab : BranchState) : List RCall :=
  match lookupA before bn with
  | none => [createCall ab]
  | some bb =>
    if bb.target_branch ≠ ab.target_branch then
      RCall.retarget ab.branch ab.target_branch ::
        (if env.retargetNotFound ab.branch then [createCall ab] else [])
    else if env.prExists bn then [] else [createCall ab]

/-- `push.rs` `handle_github_integration`. -/
def handle_github_integration (env : GhEnv)
    (before after : List (String × BranchState)) : List RCall :=
  if env.available = false then []
  else after.flatMap (fun e => handleBranch env before e.1 e.2)

/-- The repository mutations performed by one run of the push command. -/
inductive MutAction
  | setNote (id : String) (n : Note)
  | deleteNote (id : String)
  | setBranch (branch : String) (id : String) (parent : Option String)
  | pushForce (origin branch : String)
  | review (c : RCall)
deriving DecidableEq

/-- The mutations of `core.rs` `save_note` in plan order. -/
def saveNoteCalls (cs : List Commit) : List MutAction :=
  cs.map (fun c =>
    match c.target with
    | none => MutAction.deleteNote c.hash
    | some t => MutAction.setNote c.hash ⟨some ⟨t.origin, t.branch, t.parent_branch⟩⟩)

/-- The oracle for one run of `Push::execute`: the commit list read at the
start, the editor result (`none` models `edit_file` reporting a non-zero
editor exit), the resolved main-branch name, the commit list re-read by
`push_from_notes` after the notes were saved, and the git and `gh` oracles. -/
structure ExecEnv where
  commits : List EnhancedCommit
  editResult : Option String
  main_branch_name : String
  commitsAfterSave : List EnhancedCommit
  gitEnv : GitEnv
  ghEnv : GhEnv

/-- `push.rs` `Push::execute`, returning the success flag and the trace of
repository mutations in program order.  Rendering the plan and writing the
temp file happen before the editor runs and mutate nothing. -/
def execute (env : ExecEnv) (no_pr : Bool) : Bool × List MutAction :=
  let before_state := extract_branch_state env.commits
  let _plan := commits_to_string env.commits
  match env.editResult with
  | none => (false, [])
  | some content =>
    match instruction_from_string_with_main_branch content env.main_branch_name with
    | none => (false, [])
    | some after_commits =>
      let after_state := extract_branch_state_from_parsed after_commits
      (true,
        saveNoteCalls after_commits ++
        (dagCalls env.commitsAfterSave).map
          (fun d => MutAction.setBranch d.1 d.2.1 d.2.2) ++
        (pushLoop env.gitEnv env.commitsAfterSave).map
          (fun pr => MutAction.pushForce pr.1 pr.2) ++
        (if no_pr then []
         else (handle_github_integration env.ghEnv before_state after_state).map
           MutAction.review))

end PushCmd

/-! ## Well-formedness of rendered plans

`cleanName`/`validPush`/`validEC` make precise what a "commit with a valid
note" must satisfy for the renderer/parser round trip: ids are 40 lowercase
hex characters (as `Oid` prints them), titles are newline-free and contain a
non-whitespace character, names are nonempty, do not start or end with
whitespace and are newline-free, a branch contains no `=`, an origin no `:`,
the stored parent is always populated (as it is after the first save), and
when the origin is absent neither branch nor parent contains a `:` (otherwise
the reparse would read an origin out of the line). -/

def frontNonWs : List Char → Bool
  | [] => true
  | c :: _ => !(isWs c)

def cleanName (s : String) : Prop :=
  s.data ≠ [] ∧ frontNonWs s.data = true ∧ frontNonWs s.data.reverse = true ∧
    '\n' ∉ s.data

def validPush (p : Push) : Prop :=
  cleanName p.branch ∧ '=' ∉ p.branch.data ∧
  p.parent_branch ≠ none ∧ cleanName (p.parent_branch.getD p.branch) ∧
  (p.origin ≠ none →
    cleanName (p.origin.getD p.branch) ∧ ':' ∉ (p.origin.getD p.branch).data) ∧
  (p.origin = none →
    ':' ∉ p.branch.data ∧ ':' ∉ (p.parent_branch.getD p.branch).data)

def validEC (c : EnhancedCommit) : Prop :=
  c.id.data.length = 40 ∧ (∀ ch ∈ c.id.data, isLowHex ch = true) ∧
  '\n' ∉ c.title.data ∧ trimChars c.title.data ≠ [] ∧
  (pushNote c ≠ none → validPush ((pushNote c).getD ⟨none, "x", none⟩))

/-! ## Rendered lines of one commit -/

def headerLine (c : EnhancedCommit) : List Char := c.id.data ++ ' ' :: c.title.data

def targetLine (p : Push) : List Char :=
  '-' :: '>' :: ' ' ::
    ((match p.origin with
      | some o => o.data ++ ':' :: p.branch.data
      | none => p.branch.data) ++
     (match p.parent_branch with
      | some q => ' ' :: '=' :: '>' :: ' ' :: q.data
      | none => []))

/-- The lines `renderCommit` emits for one commit. -/
def commitLines (c : EnhancedCommit) : List (List Char) :=
  headerLine c ::
    (match c.note with
     | none => []
     | some n =>
       match n.push with
       | none => []
       | some p => [targetLine p, []])

/-- The parse of a rendered commit: same id, trimmed title, and the stored
push target (origin, branch, parent) verbatim. -/
def expectedCommit (c : EnhancedCommit) : Commit :=
  ⟨c.id, String.mk (trimChars c.title.data),
    (pushNote c).map (fun p => ⟨p.origin, p.branch, p.parent_branch⟩)⟩

/-! ## Helpers for stating the review-synchronizer claims -/

def callBranch : RCall → String
  | .create b _ _ _ => b
  | .retarget b _ => b

def isCreate : RCall → Bool
  | .create _ _ _ _ => true
  | .retarget _ _ => false

/-! # Theorems -/

/-! Sanity checks: the embedded parser reproduces the Rust unit tests of
`src/parser.rs`. -/

example :
    instruction_from_string
      "8c14734b80ff0ffb93caefc85553c7c5b05cca1e devinfra: New configs (#3333)\n-> d4hines/foo-bar\n" =
    some [⟨"8c14734b80ff0ffb93caefc85553c7c5b05cca1e", "devinfra: New configs (#3333)",
      some ⟨none, "d4hines/foo-bar", some "main"⟩⟩] := by decide

example :
    instruction_from_string
      "8c14734b80ff0ffb93caefc85553c7c5b05cca1e Some commit without target\n" =
    some [⟨"8c14734b80ff0ffb93caefc85553c7c5b05cca1e", "Some commit without target", none⟩] := by
  decide

example :
    instruction_from_string
      "8c14734b80ff0ffb93caefc85553c7c5b05cca1e Feature commit with colon\n-> d4hines:foo-bar\n" =
    some [⟨"8c14734b80ff0ffb93caefc85553c7c5b05cca1e", "Feature commit with colon",
      some ⟨some "d4hines", "foo-bar", some "main"⟩⟩] := by decide

example :
    instruction_from_string
      "8c14734b80ff0ffb93caefc85553c7c5b05cca1e Feature with parent\n-> feature-branch => main\n" =
    some [⟨"8c14734b80ff0ffb93caefc85553c7c5b05cca1e", "Feature with parent",
      some ⟨none, "feature-branch", some "main"⟩⟩] := by decide

example :
    instruction_from_string
      "8c14734b80ff0ffb93caefc85553c7c5b05cca1e Feature with origin and parent\n-> origin:feature-branch => develop\n" =
    some [⟨"8c14734b80ff0ffb93caefc85553c7c5b05cca1e", "Feature with origin and parent",
      some ⟨some "origin", "feature-branch", some "develop"⟩⟩] := by decide

example :
    instruction_from_string
      "8c14734b80ff0ffb93caefc85553c7c5b05cca1e First commit\n-> foo => bar\n\n9d25845c91ff1aac84dbffd96664d8d6c16dccb2 Second commit\n-> baz => bar\n\nae36956d02aa2bce95ecbba07775e9e7d27edde3 Third commit\n-> bam\n" =
    some [⟨"8c14734b80ff0ffb93caefc85553c7c5b05cca1e", "First commit",
        some ⟨none, "foo", some "bar"⟩⟩,
      ⟨"9d25845c91ff1aac84dbffd96664d8d6c16dccb2", "Second commit",
        some ⟨none, "baz", some "bar"⟩⟩,
      ⟨"ae36956d02aa2bce95ecbba07775e9e7d27edde3", "Third commit",
        some ⟨none, "bam", some "baz"⟩⟩] := by decide

example :
    instruction_from_string
      "8c14734b80ff0ffb93caefc85553c7c5b05cca1e First commit\n-> feature-1\n\n9d25845c91ff1aac84dbffd96664d8d6c16dccb2 Second commit\n-> feature-2\n\nae36956d02aa2bce95ecbba07775e9e7d27edde3 Third commit\n-> feature-3\n" =
    some [⟨"8c14734b80ff0ffb93caefc85553c7c5b05cca1e", "First commit",
        some ⟨none, "feature-1", some "main"⟩⟩,
      ⟨"9d25845c91ff1aac84dbffd96664d8d6c16dccb2", "Second commit",
        some ⟨none, "feature-2", some "feature-1"⟩⟩,
      ⟨"ae36956d02aa2bce95ecbba07775e9e7d27edde3", "Third commit",
        some ⟨none, "feature-3", some "feature-2"⟩⟩] := by decide

example : instruction_from_string "no commits here\n" = none := by decide

example :
    commits_to_string
      [⟨"8c14734b80ff0ffb93caefc85553c7c5b05cca1e", "First commit", none,
          some ⟨some ⟨none, "feature-1", some "main"⟩⟩⟩,
        ⟨"9d25845c91ff1aac84dbffd96664d8d6c16dccb2", "Second commit", none,
          some ⟨some ⟨none, "feature-2", some "feature-1"⟩⟩⟩] =
    "8c14734b80ff0ffb93caefc85553c7c5b05cca1e First commit\n-> feature-1 => main\n\n9d25845c91ff1aac84dbffd96664d8d6c16dccb2 Second commit\n-> feature-2 => feature-1\n\n" := by
  decide


/-! ## Shared helper lemmas -/

theorem save_note_cons (m : String → Option Note) (c : Commit) (cs : List Commit) :
    save_note m (c :: cs) =
      save_note
        (match c.target with
         | none => fun id => if id = c.hash then none else m id
         | some t => fun id =>
             if id = c.hash then some ⟨some ⟨t.origin, t.branch, t.parent_branch⟩⟩
             else m id)
        cs := rfl

theorem save_note_untouched (cs : List Commit) :
    ∀ (m : String → Option Note) (id : String), (∀ c ∈ cs, c.hash ≠ id) →
      save_note m cs id = m id := by
  induction cs with
  | nil => intro m id _; rfl
  | cons c cs ih =>
    intro m id h
    rw [save_note_cons]
    rw [ih _ id (fun d hd => h d (List.mem_cons_of_mem c hd))]
    have hne : ¬ (id = c.hash) := fun he => h c (List.mem_cons_self c cs) (he ▸ rfl)
    cases ht : c.target <;> simp [hne]

/-- Claim C5: note save semantics.  For every commit of the post-edit plan
(at its last occurrence, in case of duplicated ids), `save_note` leaves the
note deleted when the target is absent and otherwise stores exactly the
parsed push target; ids not appearing in the plan keep their note. -/
theorem c5_note_save_semantics (git_notes : String → Option Note) (cs : List Commit) :
    (∀ id, (∀ c ∈ cs, c.hash ≠ id) → save_note git_notes cs id = git_notes id) ∧
    (∀ cs1 c cs2, cs = cs1 ++ c :: cs2 → (∀ c2 ∈ cs2, c2.hash ≠ c.hash) →
      save_note git_notes cs c.hash =
        match c.target with
        | none => none
        | some t => some ⟨some ⟨t.origin, t.branch, t.parent_branch⟩⟩) := by
  constructor
  · exact fun id h => save_note_untouched cs git_notes id h
  · intro cs1 c cs2 hcs h2
    subst hcs
    have happ : save_note git_notes (cs1 ++ c :: cs2) =
        save_note (save_note git_notes cs1) (c :: cs2) := by
      simp [save_note, List.foldl_append]
    rw [happ, save_note_cons, save_note_untouched cs2 _ c.hash h2]
    cases ht : c.target <;> simp

/-- Claim C5 witness at a concrete plan. -/
theorem c5_witness :
    (∀ id, (∀ c ∈ [(⟨"a", "t", some ⟨none, "b", some "main"⟩⟩ : Commit)], c.hash ≠ id) →
      save_note (fun _ => none) [⟨"a", "t", some ⟨none, "b", some "main"⟩⟩] id =
        (fun _ => none : String → Option Note) id) ∧
    (∀ cs1 c cs2,
      [(⟨"a", "t", some ⟨none, "b", some "main"⟩⟩ : Commit)] = cs1 ++ c :: cs2 →
      (∀ c2 ∈ cs2, c2.hash ≠ c.hash) →
      save_note (fun _ => none) [⟨"a", "t", some ⟨none, "b", some "main"⟩⟩] c.hash =
        match c.target with
        | none => none
        | some t => some ⟨some ⟨t.origin, t.branch, t.parent_branch⟩⟩) :=
  c5_note_save_semantics (fun _ => none) [⟨"a", "t", some ⟨none, "b", some "main"⟩⟩]

/-- Claim C9: editor-abort atomicity.  When `edit_file` reports that the
editor exited non-zero, `Push::execute` returns an error and its mutation
trace is empty: no note write or delete, no branch ref update, no force-push
and no review-gateway call. -/
theorem c9_editor_abort_atomicity (env : PushCmd.ExecEnv) (no_pr : Bool)
    (h : env.editResult = none) :
    PushCmd.execute env no_pr = (false, []) := by
  simp [PushCmd.execute, h]

/-- Claim C9 witness at a concrete run. -/
theorem c9_witness :
    PushCmd.execute
      ⟨[], none, "main", [],
        ⟨"origin", fun _ _ => none, fun _ _ => none, fun _ => none⟩,
        ⟨true, fun _ => false, fun _ => false⟩⟩ false = (false, []) :=
  c9_editor_abort_atomicity _ false rfl

theorem pushLoop_abort (env : GitEnv) (c : EnhancedCommit) (p : Push)
    (hp : pushNote c = some p)
    (hdiv : env.find_local_remote_head (p.origin.getD env.default_upstream) p.branch ≠
      env.find_remote_head (p.origin.getD env.default_upstream) p.branch) :
    ∀ cs, pushLoop env (c :: cs) = [] := by
  intro cs
  simp [pushLoop, hp, hdiv]

/-- Claim C3: push-reconciler divergence safety.  As soon as the reconciler
meets a branch whose locally cached remote head differs from the freshly
observed remote head, the push phase stops: the trace of `push_force` calls
does not depend on anything after that commit, and from the divergent commit
on, no `push_force` at all is issued. -/
theorem c3_divergence_safety (env : GitEnv) (cs1 cs2 : List EnhancedCommit)
    (c : EnhancedCommit) (p : Push)
    (hp : pushNote c = some p)
    (hdiv : env.find_local_remote_head (p.origin.getD env.default_upstream) p.branch ≠
      env.find_remote_head (p.origin.getD env.default_upstream) p.branch) :
    pushLoop env (cs1 ++ c :: cs2) = pushLoop env (cs1 ++ [c]) ∧
    pushLoop env (c :: cs2) = [] := by
  refine ⟨?_, pushLoop_abort env c p hp hdiv cs2⟩
  induction cs1 with
  | nil =>
    simp [pushLoop_abort env c p hp hdiv]
  | cons d cs1 ih =>
    simp only [List.cons_append, pushLoop]
    cases hd : pushNote d with
    | none => exact ih
    | some q =>
      by_cases h1 : env.find_local_remote_head (q.origin.getD env.default_upstream) q.branch ≠
          env.find_remote_head (q.origin.getD env.default_upstream) q.branch
      · simp only [if_pos h1]
      · simp only [if_neg h1]
        by_cases h2 : env.head_of q.branch =
            env.find_remote_head (q.origin.getD env.default_upstream) q.branch
        · simp only [if_pos h2]; exact ih
        · simp only [if_neg h2]; exact congrArg (List.cons _) ih

/-- Claim C3 witness at a concrete run: one clean branch, then a divergent
one, then a further branch that must not be pushed. -/
theorem c3_witness :
    pushLoop
      ⟨"origin", (fun _ b => if b = "bad" then some "1111" else none),
        (fun _ b => if b = "bad" then some "2222" else none), fun _ => some "3333"⟩
      ([⟨"aaaa", "t1", none, some ⟨some ⟨none, "ok", some "main"⟩⟩⟩] ++
        ⟨"bbbb", "t2", none, some ⟨some ⟨none, "bad", some "ok"⟩⟩⟩ ::
        [⟨"cccc", "t3", none, some ⟨some ⟨none, "later", some "bad"⟩⟩⟩]) =
      pushLoop
        ⟨"origin", (fun _ b => if b = "bad" then some "1111" else none),
          (fun _ b => if b = "bad" then some "2222" else none), fun _ => some "3333"⟩
        ([⟨"aaaa", "t1", none, some ⟨some ⟨none, "ok", some "main"⟩⟩⟩] ++
          [⟨"bbbb", "t2", none, some ⟨some ⟨none, "bad", some "ok"⟩⟩⟩]) ∧
    pushLoop
      ⟨"origin", (fun _ b => if b = "bad" then some "1111" else none),
        (fun _ b => if b = "bad" then some "2222" else none), fun _ => some "3333"⟩
      (⟨"bbbb", "t2", none, some ⟨some ⟨none, "bad", some "ok"⟩⟩⟩ ::
        [⟨"cccc", "t3", none, some ⟨some ⟨none, "later", some "bad"⟩⟩⟩]) = [] :=
  c3_divergence_safety _ _ _ _ ⟨none, "bad", some "ok"⟩ rfl (by decide)

/-- Claim C6: push-reconciler action per branch.  For a branch reached with
no divergence detected so far and itself non-divergent, the reconciler skips
it exactly when the local head equals the observed remote head, and otherwise
force-pushes it exactly once; all other branches are unaffected. -/
theorem c6_push_per_branch (env : GitEnv) (cs1 cs2 : List EnhancedCommit)
    (c : EnhancedCommit) (p : Push)
    (hp : pushNote c = some p)
    (hnd : ∀ c2 ∈ cs1, ∀ q, pushNote c2 = some q →
      env.find_local_remote_head (q.origin.getD env.default_upstream) q.branch =
        env.find_remote_head (q.origin.getD env.default_upstream) q.branch)
    (hc : env.find_local_remote_head (p.origin.getD env.default_upstream) p.branch =
      env.find_remote_head (p.origin.getD env.default_upstream) p.branch) :
    pushLoop env (cs1 ++ c :: cs2) =
      pushLoop env cs1 ++
      (if env.head_of p.branch =
          env.find_remote_head (p.origin.getD env.default_upstream) p.branch then []
       else [(p.origin.getD env.default_upstream, p.branch)]) ++
      pushLoop env cs2 := by
  induction cs1 with
  | nil =>
    simp only [List.nil_append, pushLoop, hp]
    simp only [if_neg (not_not_intro hc)]
    by_cases h2 : env.head_of p.branch =
        env.find_remote_head (p.origin.getD env.default_upstream) p.branch
    · simp [if_pos h2, pushLoop]
    · simp [if_neg h2, pushLoop]
  | cons d cs1 ih =>
    have hnd1 : ∀ c2 ∈ cs1, ∀ q, pushNote c2 = some q →
        env.find_local_remote_head (q.origin.getD env.default_upstream) q.branch =
          env.find_remote_head (q.origin.getD env.default_upstream) q.branch :=
      fun c2 h2 => hnd c2 (List.mem_cons_of_mem d h2)
    simp only [List.cons_append, pushLoop]
    cases hd : pushNote d with
    | none => exact ih hnd1
    | some q =>
      have hq := hnd d (List.mem_cons_self d cs1) q hd
      simp only [if_neg (not_not_intro hq)]
      by_cases h2 : env.head_of q.branch =
          env.find_remote_head (q.origin.getD env.default_upstream) q.branch
      · simp only [if_pos h2]; exact ih hnd1
      · simp only [if_neg h2]; exact congrArg (List.cons _) (ih hnd1)

/-- Claim C6 witness at a concrete run: an up-to-date branch is skipped and a
changed branch is force-pushed once (here: the changed case). -/
theorem c6_witness :
    pushLoop ⟨"origin", fun _ _ => none, fun _ _ => none, fun _ => some "head"⟩
        ([] ++ ⟨"aaaa", "t", none, some ⟨some ⟨none, "b", some "main"⟩⟩⟩ :: []) =
      pushLoop ⟨"origin", fun _ _ => none, fun _ _ => none, fun _ => some "head"⟩ [] ++
      (if (⟨"origin", fun _ _ => none, fun _ _ => none,
            fun _ => some "head"⟩ : GitEnv).head_of "b" =
          (⟨"origin", fun _ _ => none, fun _ _ => none,
            fun _ => some "head"⟩ : GitEnv).find_remote_head "origin" "b" then []
       else [("origin", "b")]) ++
      pushLoop ⟨"origin", fun _ _ => none, fun _ _ => none, fun _ => some "head"⟩ [] :=
  c6_push_per_branch _ [] [] _ ⟨none, "b", some "main"⟩ rfl (by simp) rfl

/-- Claim C8: create-for-existing-branch metadata.  For a branch present in
both states with unchanged target branch, when the gateway reports that no
review exists, the synchronizer (`GitHubIntegration::handle_integration`)
issues a create call whose title and description are taken from the pre-edit
(before) state of that branch. -/
theorem c8_create_metadata (env : ReviewEnv) (before : List (String × BranchState))
    (bn : String) (ab bb : BranchState)
    (hb : lookupA before bn = some bb)
    (ht : bb.target_branch = ab.target_branch)
    (hpr : env.prExists bn = false) :
    (handleBranch env before bn ab).1 =
      [RCall.create bb.branch bb.target_branch (bb.commit_title.getD bb.branch)
        ((bb.commit_description.getD "") ++ "\n\n🤖 Created by yggit")] := by
  simp [handleBranch, hb, ht, hpr, createPR]

/-- Claim C8 witness at a concrete state pair. -/
theorem c8_witness :
    (handleBranch ⟨true, fun _ => false, fun _ => CreateOutcome.ok,
        fun _ => RetargetOutcome.ok⟩
      [("b", ⟨"b", "main", none, some "old title", some "old description"⟩)]
      "b" ⟨"b", "main", none, some "new title", none⟩).1 =
      [RCall.create "b" "main" "old title"
        ("old description" ++ "\n\n🤖 Created by yggit")] :=
  c8_create_metadata _ _ "b" ⟨"b", "main", none, some "new title", none⟩
    ⟨"b", "main", none, some "old title", some "old description"⟩ rfl rfl rfl

/-! ## Parser step lemmas -/

theorem skip_header_none (l : List Char) (h : skipLine l = true) :
    headerCaps l = none := by
  cases l with
  | nil => rfl
  | cons c t =>
    simp only [skipLine, List.isEmpty_cons, Bool.false_or] at h
    have hc : c = '#' := by
      have h2 := of_decide_eq_true h
      simp [List.take_cons] at h2
      exact h2
    subst hc
    simp [headerCaps, List.take_cons, List.all_cons,
      show isHexDigit '#' = false from rfl]

theorem arrow_header_none (l : List Char) (h : l.take 2 = ['-', '>']) :
    headerCaps l = none := by
  cases l with
  | nil => simp at h
  | cons c t =>
    have hc : c = '-' := by
      simp [List.take_cons] at h; exact h.1
    subst hc
    simp [headerCaps, List.take_cons, List.all_cons,
      show isHexDigit '-' = false from rfl]

theorem arrow_not_skip (l : List Char) (h : l.take 2 = ['-', '>']) :
    skipLine l = false := by
  cases l with
  | nil => simp at h
  | cons c t =>
    have hc : c = '-' := by
      simp [List.take_cons] at h; exact h.1
    subst hc
    simp [skipLine]

/-- A line whose header regex fails contributes nothing: the loop moves on
with the same `last_branch`. -/
theorem goLines_step_none (mainB : String) (l : List Char) (ls : List (List Char))
    (last : Option String) (h : headerCaps l = none) :
    goLines mainB (l :: ls) last = goLines mainB ls last := by
  cases ls with
  | nil => by_cases hs : skipLine l <;> simp [goLines, hs, h]
  | cons a as => by_cases hs : skipLine l <;> simp [goLines, hs, h]

/-- Claim C10: empty-title commits are dropped.  A line that is exactly a
40-hex commit id (the title empty after trimming) fails the header regex, so
that commit and a target line following it both vanish from the parse. -/
theorem c10_empty_title_dropped (mainB : String) (hl tl : List Char)
    (rest : List (List Char)) (last : Option String)
    (hlen : hl.length = 40) (hhex : hl.all isHexDigit = true)
    (harrow : tl.take 2 = ['-', '>']) :
    headerCaps hl = none ∧
    goLines mainB (hl :: tl :: rest) last = goLines mainB rest last := by
  have hnone : headerCaps hl = none := by
    unfold headerCaps
    have ht : hl.take 40 = hl := List.take_of_length_le (by omega)
    have hd : hl.drop 40 = [] := List.drop_eq_nil_of_le (by omega)
    simp [ht, hd, hlen, hhex, wsLen]
  refine ⟨hnone, ?_⟩
  rw [goLines_step_none mainB hl _ last hnone,
    goLines_step_none mainB tl _ last (arrow_header_none tl harrow)]

/-- Claim C10 witness: a bare 40-hex line followed by a target line
contributes nothing to the parse. -/
theorem c10_witness :
    headerCaps (List.replicate 40 'a') = none ∧
    goLines "main" (List.replicate 40 'a' :: ['-', '>', ' ', 'b'] :: []) none =
      goLines "main" [] none :=
  c10_empty_title_dropped "main" (List.replicate 40 'a') ['-', '>', ' ', 'b'] [] none
    (by decide) (by decide) (by decide)

theorem header_not_skip (l : List Char) (ht : String × String)
    (h : headerCaps l = some ht) : skipLine l = false := by
  cases hb : skipLine l with
  | false => rfl
  | true => rw [skip_header_none l hb] at h; cases h

theorem goLines_eq_nil_iff (mainB : String) :
    ∀ (ls : List (List Char)) (last : Option String),
      goLines mainB ls last = [] ↔ ∀ l ∈ ls, headerCaps l = none
  | [], _ => by simp [goLines]
  | [l], last => by
    by_cases hs : skipLine l
    · simp [goLines, hs, skip_header_none l hs]
    · cases hh : headerCaps l with
      | none => simp [goLines, hs, hh]
      | some ht => simp [goLines, hs, hh]
  | l :: next :: rest2, last => by
    by_cases hs : skipLine l
    · have hstep : goLines mainB (l :: next :: rest2) last =
          goLines mainB (next :: rest2) last := by
        simp [goLines, hs]
      rw [hstep, goLines_eq_nil_iff mainB (next :: rest2) last]
      simp [skip_header_none l hs]
    · cases hh : headerCaps l with
      | none =>
        have hstep : goLines mainB (l :: next :: rest2) last =
            goLines mainB (next :: rest2) last := by
          simp [goLines, hs, hh]
        rw [hstep, goLines_eq_nil_iff mainB (next :: rest2) last]
        simp [hh]
      | some ht =>
        have hne : goLines mainB (l :: next :: rest2) last ≠ [] := by
          simp only [goLines, hs, if_false, Bool.false_eq_true, hh]
          split
          · split <;> simp
          · simp
        constructor
        · intro h; exact absurd h hne
        · intro h
          exact absurd (h l (List.mem_cons_self l _)) (by simp [hh])

/-- Claim C7: parser result shape.  The parser returns `none` (not an empty
list) exactly when no trimmed line of the document matches the commit-header
regex; and a would-be target line that starts with `->` but fails the target
regex is dropped silently: its commit stays in the list with no target, and
the malformed line itself is skipped. -/
theorem c7_parser_result_shape :
    (∀ (input mainB : String),
      instruction_from_string_with_main_branch input mainB = none ↔
        ∀ l ∈ (rustLines input.data).map trimChars, headerCaps l = none) ∧
    (∀ (mainB : String) (l t : List Char) (rest : List (List Char))
        (last : Option String) (ht : String × String),
      headerCaps l = some ht → t.take 2 = ['-', '>'] → targetCaps t = none →
      goLines mainB (l :: t :: rest) last =
        ⟨ht.1, ht.2, none⟩ :: goLines mainB (t :: rest) last ∧
      goLines mainB (t :: rest) last = goLines mainB rest last) := by
  constructor
  · intro input mainB
    unfold instruction_from_string_with_main_branch
    rw [← goLines_eq_nil_iff mainB ((rustLines input.data).map trimChars) none]
    cases hgo : goLines mainB ((rustLines input.data).map trimChars) none <;>
      simp [hgo]
  · intro mainB l t rest last ht hh harr htc
    constructor
    · simp [goLines, header_not_skip l ht hh, hh, harr, htc]
    · exact goLines_step_none mainB t rest last (arrow_header_none t harr)

/-- Claim C7 witness: a headerless document parses to `none`, and a commit
whose following `->` line fails the target regex keeps no target. -/
theorem c7_witness :
    (instruction_from_string_with_main_branch "no commits" "main" = none ↔
      ∀ l ∈ (rustLines ("no commits" : String).data).map trimChars,
        headerCaps l = none) ∧
    (goLines "main" ((List.replicate 40 'a' ++ [' ', 't']) :: ['-', '>'] :: []) none =
        ⟨String.mk (List.replicate 40 'a'), "t", none⟩ ::
          goLines "main" (['-', '>'] :: []) none ∧
      goLines "main" (['-', '>'] :: []) none = goLines "main" [] none) :=
  ⟨c7_parser_result_shape.1 "no commits" "main",
    c7_parser_result_shape.2 "main" (List.replicate 40 'a' ++ [' ', 't']) ['-', '>']
      [] none (String.mk (List.replicate 40 'a'), "t") (by decide) (by decide)
      (by decide)⟩

/-- The parser's target list is the inference chain applied to the raw regex
captures: this is exactly the `last_branch` bookkeeping of the loop. -/
theorem targets_goLines (mainB : String) :
    ∀ (ls : List (List Char)) (last : Option String),
      targetsOf (goLines mainB ls last) = inferChain mainB last (goRaw ls)
  | [], _ => rfl
  | [l], last => by
    by_cases hs : skipLine l
    · simp [goLines, goRaw, hs, targetsOf, inferChain]
    · cases hh : headerCaps l with
      | none => simp [goLines, goRaw, hs, hh, targetsOf, inferChain]
      | some ht => simp [goLines, goRaw, hs, hh, targetsOf, inferChain]
  | l :: next :: rest2, last => by
    by_cases hs : skipLine l
    · simp only [goLines, goRaw, hs, if_true]
      exact targets_goLines mainB (next :: rest2) last
    · cases hh : headerCaps l with
      | none =>
        simp only [goLines, goRaw, hs, Bool.false_eq_true, if_false, hh]
        exact targets_goLines mainB (next :: rest2) last
      | some ht =>
        simp only [goLines, goRaw, hs, Bool.false_eq_true, if_false, hh]
        by_cases harr : next.take 2 = ['-', '>']
        · simp only [harr, if_true]
          cases htc : targetCaps next with
          | none =>
            simp only [targetsOf, List.filterMap_cons]
            exact targets_goLines mainB (next :: rest2) last
          | some obp =>
            simp only [targetsOf, List.filterMap_cons, inferChain]
            exact congrArg (List.cons _) (targets_goLines mainB rest2 (some obp.2.1))
        · simp only [harr, if_false]
          simp only [targetsOf, List.filterMap_cons]
          exact targets_goLines mainB (next :: rest2) last

/-- Indexed reading of `inferChain`: the j-th target keeps the raw origin and
branch; its parent is the raw parent when written, and otherwise the branch
of the (j-1)-th raw target, or the seed (`last_branch`, falling back to the
main branch) when it is the first. -/
theorem inferChain_get (mainB : String) :
    ∀ (raws : List (Option String × String × Option String)) (last : Option String)
      (j : Nat) (t : Target), (inferChain mainB last raws)[j]? = some t →
      ∃ r, raws[j]? = some r ∧ t.origin = r.1 ∧ t.branch = r.2.1 ∧
        t.parent_branch = some (r.2.2.getD
          (match j with
           | 0 => last.getD mainB
           | k + 1 => (((inferChain mainB last raws)[k]?).map Target.branch).getD mainB))
  | [], _, j, t => by simp [inferChain]
  | obp :: rest, last, 0, t => by
    intro h
    simp only [inferChain, List.getElem?_cons_zero, Option.some.injEq] at h
    subst h
    exact ⟨obp, by simp, rfl, rfl, rfl⟩
  | obp :: rest, last, j + 1, t => by
    intro h
    simp only [inferChain, List.getElem?_cons_succ] at h
    obtain ⟨r, hr, ho, hb, hp⟩ := inferChain_get mainB rest (some obp.2.1) j t h
    refine ⟨r, by simpa using hr, ho, hb, ?_⟩
    rw [hp]
    congr 1
    cases hraw : r.2.2 with
    | some q => simp
    | none =>
      simp only [hraw, Option.getD_none]
      cases j with
      | zero => simp [inferChain]
      | succ k => simp [inferChain]

/-- Claim C1: implicit-parent inference.  In any parsed plan, the j-th target
carries the origin and branch of its raw captures; when the source line wrote
an explicit `=> parent` that parent is kept, and when it was omitted the
parent is the branch of the (j-1)-th target, or the main-branch name for the
first target. -/
theorem c1_implicit_parent_inference (input mainB : String) (cs : List Commit)
    (hp : instruction_from_string_with_main_branch input mainB = some cs)
    (j : Nat) (t : Target) (ht : (targetsOf cs)[j]? = some t) :
    ∃ r, (goRaw ((rustLines input.data).map trimChars))[j]? = some r ∧
      t.origin = r.1 ∧ t.branch = r.2.1 ∧
      (∀ q, r.2.2 = some q → t.parent_branch = some q) ∧
      (r.2.2 = none →
        (j = 0 ∧ t.parent_branch = some mainB) ∨
        (∃ k tp, j = k + 1 ∧ (targetsOf cs)[k]? = some tp ∧
          t.parent_branch = some tp.branch)) := by
  have hcs : cs = goLines mainB ((rustLines input.data).map trimChars) none := by
    unfold instruction_from_string_with_main_branch at hp
    by_cases hgo : (goLines mainB ((rustLines input.data).map trimChars) none).isEmpty <;>
      simp [hgo] at hp
    exact hp.symm
  have htl : targetsOf cs =
      inferChain mainB none (goRaw ((rustLines input.data).map trimChars)) := by
    rw [hcs, targets_goLines]
  obtain ⟨r, hr, ho, hb, hpar⟩ :=
    inferChain_get mainB (goRaw ((rustLines input.data).map trimChars)) none j t
      (htl ▸ ht)
  refine ⟨r, hr, ho, hb, ?_, ?_⟩
  · intro q hq; rw [hpar, hq]; rfl
  · intro hq
    rw [hq] at hpar
    cases j with
    | zero => exact Or.inl ⟨rfl, by simpa using hpar⟩
    | succ k =>
      have hlt : k + 1 < (targetsOf cs).length := by
        have h2 := List.getElem?_eq_some_iff.mp ht
        exact h2.1
      have hk : k < (targetsOf cs).length := by omega
      refine Or.inr ⟨k, (targetsOf cs)[k], rfl, List.getElem?_eq_getElem hk, ?_⟩
      rw [hpar, ← htl]
      simp [List.getElem?_eq_getElem hk]

/-- Claim C1 witness: in the mixed explicit/implicit plan, the third target
(`-> bam`, parent omitted) chains off the second target's branch `baz`. -/
theorem c1_witness :
    ∃ r, (goRaw ((rustLines
        ("8c14734b80ff0ffb93caefc85553c7c5b05cca1e First commit\n-> foo => bar\n\n9d25845c91ff1aac84dbffd96664d8d6c16dccb2 Second commit\n-> baz => bar\n\nae36956d02aa2bce95ecbba07775e9e7d27edde3 Third commit\n-> bam\n" : String).data).map
        trimChars))[2]? = some r ∧
      (⟨none, "bam", some "baz"⟩ : Target).origin = r.1 ∧
      (⟨none, "bam", some "baz"⟩ : Target).branch = r.2.1 ∧
      (∀ q, r.2.2 = some q →
        (⟨none, "bam", some "baz"⟩ : Target).parent_branch = some q) ∧
      (r.2.2 = none →
        (2 = 0 ∧ (⟨none, "bam", some "baz"⟩ : Target).parent_branch = some "main") ∨
        (∃ k tp, 2 = k + 1 ∧
          (targetsOf
            [⟨"8c14734b80ff0ffb93caefc85553c7c5b05cca1e", "First commit",
                some ⟨none, "foo", some "bar"⟩⟩,
              ⟨"9d25845c91ff1aac84dbffd96664d8d6c16dccb2", "Second commit",
                some ⟨none, "baz", some "bar"⟩⟩,
              ⟨"ae36956d02aa2bce95ecbba07775e9e7d27edde3", "Third commit",
                some ⟨none, "bam", some "baz"⟩⟩])[k]? = some tp ∧
          (⟨none, "bam", some "baz"⟩ : Target).parent_branch = some tp.branch)) :=
  c1_implicit_parent_inference
    "8c14734b80ff0ffb93caefc85553c7c5b05cca1e First commit\n-> foo => bar\n\n9d25845c91ff1aac84dbffd96664d8d6c16dccb2 Second commit\n-> baz => bar\n\nae36956d02aa2bce95ecbba07775e9e7d27edde3 Third commit\n-> bam\n"
    "main"
    [⟨"8c14734b80ff0ffb93caefc85553c7c5b05cca1e", "First commit",
        some ⟨none, "foo", some "bar"⟩⟩,
      ⟨"9d25845c91ff1aac84dbffd96664d8d6c16dccb2", "Second commit",
        some ⟨none, "baz", some "bar"⟩⟩,
      ⟨"ae36956d02aa2bce95ecbba07775e9e7d27edde3", "Third commit",
        some ⟨none, "bam", some "baz"⟩⟩]
    (by decide) 2 ⟨none, "bam", some "baz"⟩ (by decide)

/-! ## Review-synchronizer lemmas -/

theorem lookupA_mem {α : Type} (l : List (String × α)) (k : String) (v : α)
    (h : lookupA l k = some v) : (k, v) ∈ l := by
  induction l with
  | nil => simp [lookupA] at h
  | cons e rest ih =>
    by_cases he : e.1 = k
    · simp only [lookupA, if_pos he, Option.some.injEq] at h
      subst h; subst he
      exact List.mem_cons_self _ _
    · simp only [lookupA, if_neg he] at h
      exact List.mem_cons_of_mem e (ih h)

theorem mem_lookupA {α : Type} (l : List (String × α)) (k : String) (v : α)
    (hnd : (l.map Prod.fst).Nodup) (h : (k, v) ∈ l) : lookupA l k = some v := by
  induction l with
  | nil => simp at h
  | cons e rest ih =>
    rcases List.mem_cons.mp h with he | hr
    · subst he; simp [lookupA]
    · have hk : k ∈ rest.map Prod.fst :=
        List.mem_map.mpr ⟨(k, v), hr, rfl⟩
      have hne : e.1 ≠ k := by
        intro hek
        exact (List.nodup_cons.mp hnd).1 (hek ▸ hk)
      simp only [lookupA, if_neg hne]
      exact ih (List.nodup_cons.mp hnd).2 hr

theorem createPR_ok (env : ReviewEnv) (bs : BranchState)
    (hcr : ∀ b, env.createResult b ≠ CreateOutcome.otherError) :
    (createPR env bs).2 = true := by
  simp only [createPR]
  cases h : env.createResult bs.branch with
  | ok => rfl
  | alreadyExists => rfl
  | otherError => exact absurd h (hcr bs.branch)

theorem fbwd_fields (ab : BranchState) (before : List (String × BranchState)) :
    (find_branch_with_description ab before).branch = ab.branch ∧
    (find_branch_with_description ab before).target_branch = ab.target_branch := by
  unfold find_branch_with_description
  cases before.find? (fun e => e.2.commit_title == ab.commit_title) <;> simp

theorem handleBranch_ok (env : ReviewEnv) (before : List (String × BranchState))
    (bn : String) (ab : BranchState)
    (hcr : ∀ b, env.createResult b ≠ CreateOutcome.otherError)
    (hrt : ∀ b, env.retargetResult b ≠ RetargetOutcome.otherError) :
    (handleBranch env before bn ab).2 = true := by
  unfold handleBranch
  cases hb : lookupA before bn with
  | none => exact createPR_ok env _ hcr
  | some bb =>
    by_cases hch : bb.target_branch ≠ ab.target_branch
    · simp only [if_pos hch]
      cases hr : env.retargetResult ab.branch with
      | ok => rfl
      | notFound => exact createPR_ok env _ hcr
      | otherError => exact absurd hr (hrt ab.branch)
    · simp only [if_neg hch]
      by_cases hpr : env.prExists bn
      · simp [hpr]
      · simp only [if_neg hpr]
        exact createPR_ok env _ hcr

theorem syncAfter_flat (env : ReviewEnv) (before : List (String × BranchState))
    (hcr : ∀ b, env.createResult b ≠ CreateOutcome.otherError)
    (hrt : ∀ b, env.retargetResult b ≠ RetargetOutcome.otherError) :
    ∀ l, syncAfter env before l =
      (l.flatMap (fun e => (handleBranch env before e.1 e.2).1), true) := by
  intro l
  induction l with
  | nil => rfl
  | cons e rest ih =>
    simp only [syncAfter, handleBranch_ok env before e.1 e.2 hcr hrt, if_true, ih,
      List.flatMap_cons]

theorem handle_integration_flat (env : ReviewEnv)
    (before after : List (String × BranchState)) (mainB : String)
    (hav : env.available = true)
    (hcr : ∀ b, env.createResult b ≠ CreateOutcome.otherError)
    (hrt : ∀ b, env.retargetResult b ≠ RetargetOutcome.otherError) :
    handle_integration env before after mainB =
      (after.flatMap (fun e => (handleBranch env before e.1 e.2).1), true) := by
  simp only [handle_integration, hav, Bool.true_eq_false, if_false,
    syncAfter_flat env before hcr hrt after]

/-- Every call the per-branch step can emit, by case: a create from the
after-state for a new branch, a retarget (possibly followed by a fallback
create) for a changed branch, or a create from the before-state for an
unchanged branch without a PR. -/
theorem handleBranch_calls (env : ReviewEnv) (before : List (String × BranchState))
    (bn : String) (ab : BranchState) :
    ∀ c ∈ (handleBranch env before bn ab).1,
      (lookupA before bn = none ∧
        ∃ ttl bd, c = RCall.create ab.branch ab.target_branch ttl bd) ∨
      (∃ bb, lookupA before bn = some bb ∧ bb.target_branch ≠ ab.target_branch ∧
        (c = RCall.retarget ab.branch ab.target_branch ∨
          (env.retargetResult ab.branch = RetargetOutcome.notFound ∧
            ∃ ttl bd, c = RCall.create ab.branch ab.target_branch ttl bd))) ∨
      (∃ bb, lookupA before bn = some bb ∧ bb.target_branch = ab.target_branch ∧
        env.prExists bn = false ∧
        ∃ ttl bd, c = RCall.create bb.branch bb.target_branch ttl bd) := by
  intro c hc
  unfold handleBranch at hc
  cases hb : lookupA before bn with
  | none =>
    simp only [hb, createPR, List.mem_singleton] at hc
    exact Or.inl ⟨rfl, _, _, by
      rw [hc, (fbwd_fields ab before).1, (fbwd_fields ab before).2]⟩
  | some bb =>
    by_cases hch : bb.target_branch ≠ ab.target_branch
    · cases hr : env.retargetResult ab.branch with
      | ok =>
        simp only [hb, if_pos hch, hr, List.mem_singleton] at hc
        exact Or.inr (Or.inl ⟨bb, rfl, hch, Or.inl hc⟩)
      | notFound =>
        simp only [hb, if_pos hch, hr, createPR, List.mem_cons,
          List.mem_singleton, List.not_mem_nil, or_false] at hc
        rcases hc with hc | hc
        · exact Or.inr (Or.inl ⟨bb, rfl, hch, Or.inl hc⟩)
        · exact Or.inr (Or.inl ⟨bb, rfl, hch, Or.inr ⟨rfl, _, _, hc⟩⟩)
      | otherError =>
        simp only [hb, if_pos hch, hr, List.mem_singleton] at hc
        exact Or.inr (Or.inl ⟨bb, rfl, hch, Or.inl hc⟩)
    · push_neg at hch
      by_cases hpr : env.prExists bn
      · simp [hb, hch, hpr] at hc
      · simp only [hb, if_neg (by simp [hch] : ¬ bb.target_branch ≠ ab.target_branch),
          if_neg hpr, createPR, List.mem_singleton] at hc
        exact Or.inr (Or.inr ⟨bb, rfl, hch, Bool.eq_false_iff.mpr hpr, _, _, hc⟩)

/-- Claim C4 counterexample: with the gateway available and reporting no
existing review, a branch present in both the before and the after state with
an unchanged target still receives a `create` call, so `create` is not issued
exactly for the branches in after-but-not-before. -/
theorem c4_counterexample :
    lookupA [("b", (⟨"b", "main", none, none, none⟩ : BranchState))] "b" ≠ none ∧
    RCall.create "b" "main" "b" "\n\n🤖 Created by yggit" ∈
      (handle_integration
        ⟨true, fun _ => false, fun _ => CreateOutcome.ok,
          fun _ => RetargetOutcome.ok⟩
        [("b", ⟨"b", "main", none, none, none⟩)]
        [("b", ⟨"b", "main", none, none, none⟩)] "main").1 := by
  refine ⟨by decide, ?_⟩
  decide

/-- Claim C4, amended: with the gateway available and no hard gateway errors,
on well-formed state maps the synchronizer issues `retarget` exactly for the
branches present in both maps with a changed target; it issues `create` for
every branch in after-but-not-before, and additionally for branches in both
maps with unchanged target for which the gateway reports no existing review,
and as a fallback for changed branches whose retarget reports "not found";
every call is for a branch of the after-state, so branches only in the
before-state receive no call. -/
theorem c4_amended (env : ReviewEnv) (before after : List (String × BranchState))
    (mainB : String)
    (hav : env.available = true)
    (hcr : ∀ b, env.createResult b ≠ CreateOutcome.otherError)
    (hrt : ∀ b, env.retargetResult b ≠ RetargetOutcome.otherError)
    (hwfA : ∀ e ∈ after, e.2.branch = e.1)
    (hwfB : ∀ e ∈ before, e.2.branch = e.1)
    (hnd : (after.map Prod.fst).Nodup) :
    (∀ bn ab, lookupA after bn = some ab → lookupA before bn = none →
      ∃ ttl bd, RCall.create bn ab.target_branch ttl bd ∈
        (handle_integration env before after mainB).1) ∧
    (∀ bn ab bb, lookupA after bn = some ab → lookupA before bn = some bb →
      bb.target_branch ≠ ab.target_branch →
      RCall.retarget bn ab.target_branch ∈
        (handle_integration env before after mainB).1) ∧
    (∀ c ∈ (handle_integration env before after mainB).1,
      lookupA after (callBranch c) ≠ none) ∧
    (∀ bn nb, RCall.retarget bn nb ∈ (handle_integration env before after mainB).1 →
      ∃ ab bb, lookupA after bn = some ab ∧ lookupA before bn = some bb ∧
        bb.target_branch ≠ ab.target_branch ∧ nb = ab.target_branch) ∧
    (∀ bn tgt ttl bd,
      RCall.create bn tgt ttl bd ∈ (handle_integration env before after mainB).1 →
      lookupA before bn = none ∨
      (∃ ab bb, lookupA after bn = some ab ∧ lookupA before bn = some bb ∧
        bb.target_branch = ab.target_branch ∧ env.prExists bn = false) ∨
      (∃ ab bb, lookupA after bn = some ab ∧ lookupA before bn = some bb ∧
        bb.target_branch ≠ ab.target_branch ∧
        env.retargetResult bn = RetargetOutcome.notFound)) := by
  have hT := handle_integration_flat env before after mainB hav hcr hrt
  refine ⟨?_, ?_, ?_, ?_, ?_⟩
  · intro bn ab ha hbnone
    have hmem : (bn, ab) ∈ after := lookupA_mem after bn ab ha
    have hbr : ab.branch = bn := hwfA (bn, ab) hmem
    refine ⟨(find_branch_with_description ab before).commit_title.getD
        (find_branch_with_description ab before).branch,
      ((find_branch_with_description ab before).commit_description.getD "") ++
        "\n\n🤖 Created by yggit", ?_⟩
    rw [hT]
    refine List.mem_flatMap.mpr ⟨(bn, ab), hmem, ?_⟩
    simp only [handleBranch, hbnone, createPR, List.mem_singleton]
    rw [(fbwd_fields ab before).1, (fbwd_fields ab before).2, hbr]
  · intro bn ab bb ha hbb hch
    have hmem : (bn, ab) ∈ after := lookupA_mem after bn ab ha
    have hbr : ab.branch = bn := hwfA (bn, ab) hmem
    subst hbr
    rw [hT]
    refine List.mem_flatMap.mpr ⟨(ab.branch, ab), hmem, ?_⟩
    cases hr : env.retargetResult ab.branch <;>
      simp [handleBranch, hbb, if_pos hch, hr, createPR]
  · intro c hc
    rw [hT] at hc
    obtain ⟨e, he, hce⟩ := List.mem_flatMap.mp hc
    have hbrA : e.2.branch = e.1 := hwfA e he
    have hlook : lookupA after e.1 = some e.2 := mem_lookupA after e.1 e.2 hnd he
    rcases handleBranch_calls env before e.1 e.2 c hce with
      ⟨hn, ttl, bd, hcc⟩ | ⟨bb, hbb, hch, hcc⟩ | ⟨bb, hbb, hch, hpr, ttl, bd, hcc⟩
    · subst hcc; simp [callBranch, hbrA, hlook]
    · rcases hcc with hcc | ⟨hnF, ttl, bd, hcc⟩ <;>
        (subst hcc; simp [callBranch, hbrA, hlook])
    · subst hcc
      have hbbm := lookupA_mem before e.1 bb hbb
      have hbrB : bb.branch = e.1 := hwfB (e.1, bb) hbbm
      simp [callBranch, hbrB, hlook]
  · intro bn nb hcm
    rw [hT] at hcm
    obtain ⟨e, he, hce⟩ := List.mem_flatMap.mp hcm
    have hbrA : e.2.branch = e.1 := hwfA e he
    have hlook : lookupA after e.1 = some e.2 := mem_lookupA after e.1 e.2 hnd he
    rcases handleBranch_calls env before e.1 e.2 _ hce with
      ⟨hn, ttl, bd, hcc⟩ | ⟨bb, hbb, hch, hcc⟩ | ⟨bb, hbb, hch, hpr, ttl, bd, hcc⟩
    · cases hcc
    · rcases hcc with hcc | ⟨hnF, ttl, bd, hcc⟩
      · have h1 : bn = e.2.branch := (RCall.retarget.injEq ..▸ hcc) |>.1
        have h2 : nb = e.2.target_branch := (RCall.retarget.injEq ..▸ hcc) |>.2
        refine ⟨e.2, bb, ?_, ?_, hch, h2⟩
        · rw [h1, hbrA]; exact hlook
        · rw [h1, hbrA]; exact hbb
      · cases hcc
    · cases hcc
  · intro bn tgt ttl bd hcm
    rw [hT] at hcm
    obtain ⟨e, he, hce⟩ := List.mem_flatMap.mp hcm
    have hbrA : e.2.branch = e.1 := hwfA e he
    have hlook : lookupA after e.1 = some e.2 := mem_lookupA after e.1 e.2 hnd he
    rcases handleBranch_calls env before e.1 e.2 _ hce with
      ⟨hn, ttl2, bd2, hcc⟩ | ⟨bb, hbb, hch, hcc⟩ | ⟨bb, hbb, hch, hpr, ttl2, bd2, hcc⟩
    · have h1 : bn = e.2.branch := (RCall.create.injEq ..▸ hcc) |>.1
      left
      rw [h1, hbrA]; exact hn
    · rcases hcc with hcc | ⟨hnF, ttl2, bd2, hcc⟩
      · cases hcc
      · have h1 : bn = e.2.branch := (RCall.create.injEq ..▸ hcc) |>.1
        right; right
        refine ⟨e.2, bb, ?_, ?_, hch, ?_⟩
        · rw [h1, hbrA]; exact hlook
        · rw [h1, hbrA]; exact hbb
        · rw [h1]; exact hnF
    · have hbbm := lookupA_mem before e.1 bb hbb
      have hbrB : bb.branch = e.1 := hwfB (e.1, bb) hbbm
      have h1 : bn = bb.branch := (RCall.create.injEq ..▸ hcc) |>.1
      right; left
      refine ⟨e.2, bb, ?_, ?_, hch, ?_⟩
      · rw [h1, hbrB]; exact hlook
      · rw [h1, hbrB]; exact hbb
      · rw [h1, hbrB]; exact hpr

/-- Claim C4 witness: in a concrete run with a changed branch, the amended
characterization yields the expected `retarget` call. -/
theorem c4_witness :
    RCall.retarget "chg" "dev" ∈
      (handle_integration
        ⟨true, fun _ => true, fun _ => CreateOutcome.ok,
          fun _ => RetargetOutcome.ok⟩
        [("chg", ⟨"chg", "main", none, none, none⟩)]
        [("chg", ⟨"chg", "dev", none, none, none⟩)] "main").1 :=
  (c4_amended
    ⟨true, fun _ => true, fun _ => CreateOutcome.ok, fun _ => RetargetOutcome.ok⟩
    [("chg", ⟨"chg", "main", none, none, none⟩)]
    [("chg", ⟨"chg", "dev", none, none, none⟩)] "main" rfl
    (fun _ h => CreateOutcome.noConfusion h)
    (fun _ h => RetargetOutcome.noConfusion h)
    (by decide) (by decide) (by decide)).2.1 "chg"
    ⟨"chg", "dev", none, none, none⟩ ⟨"chg", "main", none, none, none⟩
    rfl rfl (by decide)

/-! ## Round-trip lemmas (renderer then parser) -/

theorem commits_to_string_data (cs : List EnhancedCommit) :
    (commits_to_string cs).data = cs.flatMap (fun c => (renderCommit c).data) := by
  have hgen : ∀ (l : List EnhancedCommit) (a : String),
      (l.foldl (fun output c => output ++ renderCommit c) a).data =
        a.data ++ l.flatMap (fun c => (renderCommit c).data) := by
    intro l
    induction l with
    | nil => intro a; simp
    | cons c l ih =>
      intro a
      simp only [List.foldl_cons, ih, String.data_append, List.flatMap_cons,
        List.append_assoc]
  simpa using hgen cs ""

theorem renderCommit_data (c : EnhancedCommit) :
    (renderCommit c).data = (commitLines c).flatMap (fun l => l ++ ['\n']) := by
  cases hn : c.note with
  | none =>
    simp [renderCommit, commitLines, headerLine, hn, String.data_append]
  | some n =>
    cases hp : n.push with
    | none =>
      simp [renderCommit, commitLines, headerLine, hn, hp, String.data_append]
    | some p =>
      cases ho : p.origin <;> cases hq : p.parent_branch <;>
        simp [renderCommit, commitLines, headerLine, targetLine, hn, hp, ho, hq,
          String.data_append]

theorem rustLines_cons_ne (c : Char) (t : List Char) (hc : c ≠ '\n') :
    rustLines (c :: t) = match rustLines t with
      | [] => [[c]]
      | l :: ls => (c :: l) :: ls := by
  simp only [rustLines]

theorem rustLines_line (l : List Char) (rest : List Char) (h : '\n' ∉ l) :
    rustLines (l ++ '\n' :: rest) = l :: rustLines rest := by
  induction l with
  | nil => simp [rustLines]
  | cons c t ih =>
    have hc : c ≠ '\n' := fun he => h (he ▸ List.mem_cons_self c t)
    have ht : '\n' ∉ t := fun hm => h (List.mem_cons_of_mem c hm)
    simp only [List.cons_append]
    rw [rustLines_cons_ne c (t ++ '\n' :: rest) hc, ih ht]

theorem rustLines_flat (ls : List (List Char)) (h : ∀ l ∈ ls, '\n' ∉ l) :
    rustLines (ls.flatMap (fun l => l ++ ['\n'])) = ls := by
  induction ls with
  | nil => rfl
  | cons l rest ih =>
    have hl : '\n' ∉ l := h l (List.mem_cons_self l rest)
    have hr : ∀ l2 ∈ rest, '\n' ∉ l2 := fun l2 h2 => h l2 (List.mem_cons_of_mem l h2)
    simp only [List.flatMap_cons, List.append_assoc, List.singleton_append]
    rw [rustLines_line l _ hl, ih hr]

/-! ## Trim lemmas -/

theorem ltrim_of_front (l : List Char) (h : frontNonWs l = true) : ltrim l = l := by
  cases l with
  | nil => rfl
  | cons c t =>
    simp only [frontNonWs, Bool.not_eq_true'] at h
    simp [ltrim, List.dropWhile_cons, h]

theorem rtrim_of_back (l : List Char) (h : frontNonWs l.reverse = true) :
    rtrim l = l := by
  have h2 := ltrim_of_front l.reverse h
  unfold ltrim at h2
  unfold rtrim
  rw [h2, List.reverse_reverse]

theorem trimChars_of_clean (l : List Char) (hf : frontNonWs l = true)
    (hb : frontNonWs l.reverse = true) : trimChars l = l := by
  unfold trimChars
  rw [rtrim_of_back l hb, ltrim_of_front l hf]

theorem frontNonWs_append (x y : List Char) (hx : x ≠ []) :
    frontNonWs (x ++ y) = frontNonWs x := by
  cases x with
  | nil => exact absurd rfl hx
  | cons c t => rfl

theorem rtrim_append (l1 l2 : List Char) (h : rtrim l2 ≠ []) :
    rtrim (l1 ++ l2) = l1 ++ rtrim l2 := by
  unfold rtrim at h ⊢
  rw [List.reverse_append, List.dropWhile_append]
  have h2 : ¬ (l2.reverse.dropWhile isWs).isEmpty := by
    intro hempty
    exact h (by simp [List.isEmpty_iff.mp hempty])
  simp only [h2, if_false, Bool.false_eq_true]
  rw [List.reverse_append, List.reverse_reverse]

theorem drop_wsLen (l : List Char) : l.drop (wsLen l) = ltrim l := by
  have hsplit : l.takeWhile isWs ++ l.dropWhile isWs = l :=
    List.takeWhile_append_dropWhile ..
  calc l.drop (wsLen l)
      = (l.takeWhile isWs ++ l.dropWhile isWs).drop (l.takeWhile isWs).length := by
        rw [hsplit]; rfl
    _ = l.dropWhile isWs := List.drop_left ..

/-- A nonempty all-non-newline hex id starts the trimmed header line. -/
theorem ltrim_hex_front (l : List Char) (h : ∀ ch ∈ l, isLowHex ch = true)
    (hne : l ≠ []) : frontNonWs l = true := by
  cases l with
  | nil => exact absurd rfl hne
  | cons c t =>
    have hc := h c (List.mem_cons_self c t)
    simp only [frontNonWs, Bool.not_eq_true']
    by_contra hw
    have hw2 : isWs c = true := by
      cases hws : isWs c
      · exact absurd hws hw
      · rfl
    have hd : ((c = ' ' ∨ c = '\t') ∨ c = '\r') ∨ c = '\n' := by
      simpa [isWs, Char.isWhitespace] using hw2
    rcases hd with ((h1 | h1) | h1) | h1 <;> (subst h1; exact absurd hc (by decide))

theorem lowHex_isHexDigit (c : Char) (h : isLowHex c = true) : isHexDigit c = true := by
  simp only [isLowHex, Bool.or_eq_true, Bool.and_eq_true, decide_eq_true_eq] at h
  simp only [isHexDigit, Bool.or_eq_true, Bool.and_eq_true, decide_eq_true_eq]
  rcases h with h | h
  · exact Or.inl (Or.inl h)
  · exact Or.inl (Or.inr h)

theorem hexLower_lowhex (c : Char) (h : isLowHex c = true) : hexLower c = c := by
  simp only [isLowHex, Bool.or_eq_true, Bool.and_eq_true, decide_eq_true_eq] at h
  unfold hexLower
  by_cases hA : (('A' ≤ c) && (c ≤ 'F')) = true
  · exfalso
    simp only [Bool.and_eq_true, decide_eq_true_eq] at hA
    rcases h with ⟨h1, h2⟩ | ⟨h1, h2⟩
    · exact absurd (le_trans hA.1 h2) (by decide)
    · exact absurd (le_trans h1 hA.2) (by decide)
  · simp [hA]

theorem map_hexLower_id (l : List Char) (h : ∀ ch ∈ l, isLowHex ch = true) :
    l.map hexLower = l := by
  induction l with
  | nil => rfl
  | cons c t ih =>
    rw [List.map_cons, hexLower_lowhex c (h c (List.mem_cons_self c t)),
      ih (fun ch hch => h ch (List.mem_cons_of_mem c hch))]

theorem trim_headerLine (idc titlec : List Char)
    (hlen : idc.length = 40) (hhex : ∀ ch ∈ idc, isLowHex ch = true)
    (hnz : trimChars titlec ≠ []) :
    trimChars (idc ++ ' ' :: titlec) = idc ++ ' ' :: rtrim titlec := by
  have hne : idc ≠ [] := by intro h2; rw [h2] at hlen; simp at hlen
  have hrt : rtrim titlec ≠ [] := by
    intro h2; unfold trimChars at hnz; rw [h2] at hnz; exact hnz rfl
  have hsplit : idc ++ ' ' :: titlec = (idc ++ [' ']) ++ titlec := by simp
  unfold trimChars
  rw [hsplit, rtrim_append _ _ hrt]
  have hfront : frontNonWs ((idc ++ [' ']) ++ rtrim titlec) = true := by
    rw [frontNonWs_append _ _ (by simp : idc ++ [' '] ≠ []),
      frontNonWs_append _ _ hne]
    exact ltrim_hex_front idc hhex hne
  rw [ltrim_of_front _ hfront]
  simp

theorem headerCaps_header (idc titlec : List Char)
    (hlen : idc.length = 40) (hhex : ∀ ch ∈ idc, isLowHex ch = true)
    (hnz : trimChars titlec ≠ []) :
    headerCaps (idc ++ ' ' :: rtrim titlec) =
      some (String.mk idc, String.mk (trimChars titlec)) := by
  have htake : (idc ++ ' ' :: rtrim titlec).take 40 = idc := List.take_left' hlen
  have hdrop : (idc ++ ' ' :: rtrim titlec).drop 40 = ' ' :: rtrim titlec :=
    List.drop_left' hlen
  have hall : idc.all isHexDigit = true := by
    rw [List.all_eq_true]
    exact fun ch hch => lowHex_isHexDigit ch (hhex ch hch)
  have hw : wsLen (' ' :: rtrim titlec) = wsLen (rtrim titlec) + 1 := by
    simp [wsLen, List.takeWhile_cons, show isWs ' ' = true from rfl]
  have hrest : (' ' :: rtrim titlec).drop (wsLen (rtrim titlec) + 1) =
      trimChars titlec := by
    rw [List.drop_succ_cons, drop_wsLen]
    rfl
  have hempty : (trimChars titlec).isEmpty = false := by
    simpa [List.isEmpty_iff] using hnz
  unfold headerCaps
  rw [htake, hdrop]
  simp [hlen, hall, hw, hrest, hempty, map_hexLower_id idc hhex]

/-! ## Target-line lemmas -/

theorem findSome_range {α : Type} (f : Nat → Option α) (m k : Nat) (a : α)
    (hk : k < m) (h1 : ∀ j, j < k → f j = none) (h2 : f k = some a) :
    (List.range m).findSome? f = some a := by
  induction m with
  | zero => omega
  | succ m ih =>
    rw [List.range_succ, List.findSome?_append]
    rcases Nat.lt_succ_iff_lt_or_eq.mp hk with hlt | heq
    · rw [ih hlt]; rfl
    · subst heq
      have hnone : (List.range k).findSome? f = none := by
        rw [List.findSome?_eq_none_iff]
        intro x hx
        exact h1 x (List.mem_range.mp hx)
      rw [hnone]
      simp [List.findSome?_cons, h2]

theorem takeWhile_ws_front (l : List Char) (h : frontNonWs l = true) :
    l.takeWhile isWs = [] := by
  cases l with
  | nil => rfl
  | cons c t =>
    simp only [frontNonWs, Bool.not_eq_true'] at h
    simp [List.takeWhile_cons, h]

theorem wsLen_front (l : List Char) (h : frontNonWs l = true) : wsLen l = 0 := by
  simp [wsLen, takeWhile_ws_front l h]

theorem parentCaps_sep (pp : List Char) (hne : pp ≠ []) (hf : frontNonWs pp = true) :
    parentCaps (' ' :: '=' :: '>' :: ' ' :: pp) = some pp := by
  have hw1 : wsLen (' ' :: '=' :: '>' :: ' ' :: pp) = 1 := by
    simp [wsLen, List.takeWhile_cons, show isWs ' ' = true from rfl,
      show isWs '=' = false from by decide]
  have hw2 : wsLen (' ' :: pp) = 1 := by
    simp [wsLen, List.takeWhile_cons, show isWs ' ' = true from rfl,
      takeWhile_ws_front pp hf]
  have hppe : pp.isEmpty = false := by simpa [List.isEmpty_iff] using hne
  unfold parentCaps
  rw [hw1]
  simp only [List.drop_succ_cons, List.drop_zero, List.take_succ_cons,
    List.take_zero, List.drop_one]
  simp [hw2, hppe]

theorem parentCaps_none_of_head (r : List Char) (c : Char) (t : List Char)
    (hl : ltrim r = c :: t) (hc : c ≠ '=') : parentCaps r = none := by
  unfold parentCaps
  rw [drop_wsLen, hl]
  have : ¬ ((c :: t).take 2 = ['=', '>']) := by
    intro he
    rw [List.take_succ_cons] at he
    exact hc (List.cons_eq_cons.mp he).1
  simp [this]
  intro he
  exact absurd he hc

theorem ltrim_ne_nil_of_mem (x : List Char) (d : Char) (hd : isWs d = false)
    (hmem : d ∈ x) : ltrim x ≠ [] := by
  intro h
  unfold ltrim at h
  rw [List.dropWhile_eq_nil_iff] at h
  rw [h d hmem] at hd
  cases hd

theorem ltrim_append_of_ne_nil (x y : List Char) (hx : ltrim x ≠ []) :
    ltrim (x ++ y) = ltrim x ++ y := by
  unfold ltrim at hx ⊢
  rw [List.dropWhile_append]
  have h2 : (x.dropWhile isWs).isEmpty = false := by
    simpa [List.isEmpty_iff] using hx
  simp [h2]

theorem branchParent_full (b pp : List Char) (hbne : b ≠ [])
    (hbback : frontNonWs b.reverse = true) (hbe : '=' ∉ b)
    (hpne : pp ≠ []) (hpf : frontNonWs pp = true) :
    branchParent (b ++ ' ' :: '=' :: '>' :: ' ' :: pp) = some (b, some pp) := by
  have hblen : 0 < b.length := List.length_pos.mpr hbne
  -- the last character of b is not whitespace
  obtain ⟨d, y2, hrev⟩ : ∃ d y2, b.reverse = d :: y2 := by
    cases hb : b.reverse with
    | nil => exact absurd (by simpa using congrArg List.reverse hb) hbne
    | cons d y2 => exact ⟨d, y2, rfl⟩
  have hdws : isWs d = false := by
    have := hbback
    rw [hrev] at this
    simpa [frontNonWs, Bool.not_eq_true'] using this
  have hb_eq : b = y2.reverse ++ [d] := by
    have := congrArg List.reverse hrev
    simpa using this
  have hball : ∀ a ∈ b, (fun c => decide (c ≠ '=')) a = true := by
    intro a ha
    have ha2 : a ≠ '=' := fun he => hbe (he ▸ ha)
    simpa using ha2
  have hmax : ((b ++ ' ' :: '=' :: '>' :: ' ' :: pp).takeWhile
      (fun c => c ≠ '=')).length = b.length + 1 := by
    rw [List.takeWhile_append_of_pos hball]
    simp [List.takeWhile_cons, show (decide (' ' ≠ '=')) = true from by decide,
      show (decide ('=' ≠ '=')) = false from by decide]
  unfold branchParent
  rw [hmax]
  apply findSome_range _ _ (b.length - 1)
  · omega
  · intro j hj
    have hn : j + 1 < b.length := by omega
    have hdropv : (b ++ ' ' :: '=' :: '>' :: ' ' :: pp).drop (j + 1) =
        b.drop (j + 1) ++ ' ' :: '=' :: '>' :: ' ' :: pp :=
      List.drop_append_of_le_length (by omega)
    have hdmem : d ∈ b.drop (j + 1) := by
      rw [hb_eq, List.drop_append_of_le_length (by
        have : y2.reverse.length + 1 = b.length := by
          rw [hb_eq]; simp
        omega)]
      exact List.mem_append_right _ (List.mem_singleton.mpr rfl)
    have hlne : ltrim (b.drop (j + 1)) ≠ [] :=
      ltrim_ne_nil_of_mem _ d hdws hdmem
    obtain ⟨c, t, hct⟩ : ∃ c t, ltrim (b.drop (j + 1)) = c :: t := by
      cases hl : ltrim (b.drop (j + 1)) with
      | nil => exact absurd hl hlne
      | cons c t => exact ⟨c, t, rfl⟩
    have hcb : c ∈ b := by
      have hsub : c ∈ ltrim (b.drop (j + 1)) := by rw [hct]; exact List.mem_cons_self ..
      have h2 : c ∈ b.drop (j + 1) := (List.dropWhile_sublist _).mem hsub
      exact List.drop_subset _ _ h2
    have hpc : parentCaps ((b ++ ' ' :: '=' :: '>' :: ' ' :: pp).drop (j + 1)) = none := by
      rw [hdropv]
      refine parentCaps_none_of_head _ c (t ++ ' ' :: '=' :: '>' :: ' ' :: pp) ?_
        (fun he => hbe (he ▸ hcb))
      rw [ltrim_append_of_ne_nil _ _ hlne, hct]
      rfl
    have hne2 : ((b ++ ' ' :: '=' :: '>' :: ' ' :: pp).drop (j + 1)).isEmpty = false := by
      rw [hdropv]
      cases hbd : b.drop (j + 1) <;> simp
    simp [hne2, hpc]
  · have hk1 : b.length - 1 + 1 = b.length := by omega
    rw [hk1]
    have hdropv : (b ++ ' ' :: '=' :: '>' :: ' ' :: pp).drop b.length =
        ' ' :: '=' :: '>' :: ' ' :: pp := List.drop_left ..
    have htakev : (b ++ ' ' :: '=' :: '>' :: ' ' :: pp).take b.length = b :=
      List.take_left ..
    simp only [hk1, hdropv, htakev]
    simp [parentCaps_sep pp hpne hpf]

theorem originSplit_mk (o rest : List Char) (ho : o ≠ []) (hoc : ':' ∉ o) :
    originSplit (o ++ ':' :: rest) = some (o, rest) := by
  have hball : ∀ a ∈ o, (fun c => decide (c ≠ ':')) a = true := by
    intro a ha
    have ha2 : a ≠ ':' := fun he => hoc (he ▸ ha)
    simpa using ha2
  have hoe : o.isEmpty = false := by simpa [List.isEmpty_iff] using ho
  have hdropo : (o ++ ':' :: rest).drop (o.length + 1) = rest := by
    have hsp : o ++ ':' :: rest = (o ++ [':']) ++ rest := by simp
    rw [hsp, List.drop_left' (by simp)]
  unfold originSplit
  rw [List.takeWhile_append_of_pos hball]
  simp only [List.takeWhile_cons, show (decide (':' ≠ ':')) = false from by decide,
    Bool.false_eq_true, if_false, List.append_nil]
  simp [hoe, hdropo]

theorem originSplit_none (u : List Char) (h : ':' ∉ u) : originSplit u = none := by
  have hball : ∀ a ∈ u, (fun c => decide (c ≠ ':')) a = true := by
    intro a ha
    have ha2 : a ≠ ':' := fun he => h (he ▸ ha)
    simpa using ha2
  have htw : u.takeWhile (fun c => decide (c ≠ ':')) = u := by
    have h2 := @List.takeWhile_append_of_pos _ (fun c => decide (c ≠ ':')) u [] hball
    simpa using h2
  unfold originSplit
  rw [htw]
  simp [Nat.lt_irrefl]

theorem mk_data (s : String) : String.mk s.data = s := rfl

theorem backNonWs_append (x y : List Char) (hy : y ≠ []) :
    frontNonWs (x ++ y).reverse = frontNonWs y.reverse := by
  rw [List.reverse_append]
  exact frontNonWs_append _ _ (by simpa using hy)

theorem targetCaps_render (p : Push) (hv : validPush p) :
    targetCaps (targetLine p) = some (p.origin, p.branch, p.parent_branch) := by
  obtain ⟨hbclean, hbeq, hpne, hppclean, hosome, honone⟩ := hv
  obtain ⟨hbne, hbf, hbb, hbnl⟩ := hbclean
  obtain ⟨pp, hpp⟩ : ∃ pp, p.parent_branch = some pp := by
    cases h : p.parent_branch with
    | none => exact absurd h hpne
    | some x => exact ⟨x, rfl⟩
  have hppD : p.parent_branch.getD p.branch = pp := by rw [hpp]; rfl
  rw [hppD] at hppclean honone
  obtain ⟨hpne2, hpf, hpb, hpnl⟩ := hppclean
  have hbtrim : trimChars p.branch.data = p.branch.data := trimChars_of_clean _ hbf hbb
  have hptrim : trimChars pp.data = pp.data := trimChars_of_clean _ hpf hpb
  cases ho : p.origin with
  | some o =>
    have hoc := hosome (by simp [ho])
    have hoD : p.origin.getD p.branch = o := by rw [ho]; rfl
    rw [hoD] at hoc
    obtain ⟨⟨hone, hof, hob, honl⟩, hocolon⟩ := hoc
    have hshape : targetLine p = '-' :: '>' :: ' ' ::
        (o.data ++ ':' :: (p.branch.data ++ ' ' :: '=' :: '>' :: ' ' :: pp.data)) := by
      simp [targetLine, ho, hpp]
    have hfrontbody : frontNonWs
        (o.data ++ ':' :: (p.branch.data ++ ' ' :: '=' :: '>' :: ' ' :: pp.data)) = true := by
      rw [frontNonWs_append _ _ hone]; exact hof
    have hwmax : wsLen (' ' ::
        (o.data ++ ':' :: (p.branch.data ++ ' ' :: '=' :: '>' :: ' ' :: pp.data))) = 1 := by
      simp [wsLen, List.takeWhile_cons, show isWs ' ' = true from rfl,
        takeWhile_ws_front _ hfrontbody]
    have hsplit : originSplit
        (o.data ++ ':' :: (p.branch.data ++ ' ' :: '=' :: '>' :: ' ' :: pp.data)) =
        some (o.data, p.branch.data ++ ' ' :: '=' :: '>' :: ' ' :: pp.data) :=
      originSplit_mk _ _ hone hocolon
    have hbp : branchParent (p.branch.data ++ ' ' :: '=' :: '>' :: ' ' :: pp.data) =
        some (p.branch.data, some pp.data) :=
      branchParent_full _ _ hbne hbb hbeq hpne2 hpf
    rw [hshape]
    unfold targetCaps
    simp only [List.take_succ_cons, List.take_zero, List.drop_succ_cons,
      List.drop_zero, if_pos rfl, hwmax]
    rw [show List.range (1 + 1) = [0, 1] from rfl]
    rw [List.findSome?_cons]
    simp only [Nat.sub_zero, List.drop_one, List.tail_cons, hsplit, hbp]
    simp [ho, hpp, mk_data, hbtrim, hptrim]
  | none =>
    have hoc := honone ho
    obtain ⟨hbcolon, hpcolon⟩ := hoc
    have hshape : targetLine p = '-' :: '>' :: ' ' ::
        (p.branch.data ++ ' ' :: '=' :: '>' :: ' ' :: pp.data) := by
      simp [targetLine, ho, hpp]
    have hnocolon : ':' ∉ (p.branch.data ++ ' ' :: '=' :: '>' :: ' ' :: pp.data) := by
      intro hmem
      rcases List.mem_append.mp hmem with hm | hm
      · exact hbcolon hm
      · simp only [List.mem_cons] at hm
        rcases hm with hm2 | hm2 | hm2 | hm2 | hm2
        · exact absurd hm2 (by decide)
        · exact absurd hm2 (by decide)
        · exact absurd hm2 (by decide)
        · exact absurd hm2 (by decide)
        · exact hpcolon hm2
    have hfrontbody : frontNonWs
        (p.branch.data ++ ' ' :: '=' :: '>' :: ' ' :: pp.data) = true := by
      rw [frontNonWs_append _ _ hbne]; exact hbf
    have hwmax : wsLen (' ' ::
        (p.branch.data ++ ' ' :: '=' :: '>' :: ' ' :: pp.data)) = 1 := by
      simp [wsLen, List.takeWhile_cons, show isWs ' ' = true from rfl,
        takeWhile_ws_front _ hfrontbody]
    have hsplit : originSplit
        (p.branch.data ++ ' ' :: '=' :: '>' :: ' ' :: pp.data) = none :=
      originSplit_none _ hnocolon
    have hbp : branchParent (p.branch.data ++ ' ' :: '=' :: '>' :: ' ' :: pp.data) =
        some (p.branch.data, some pp.data) :=
      branchParent_full _ _ hbne hbb hbeq hpne2 hpf
    rw [hshape]
    unfold targetCaps
    simp only [List.take_succ_cons, List.take_zero, List.drop_succ_cons,
      List.drop_zero, if_pos rfl, hwmax]
    rw [show List.range (1 + 1) = [0, 1] from rfl]
    rw [List.findSome?_cons]
    simp only [Nat.sub_zero, List.drop_one, List.tail_cons, hsplit, hbp]
    simp [ho, hpp, mk_data, hbtrim, hptrim]

theorem trim_targetLine (p : Push) (hv : validPush p) :
    trimChars (targetLine p) = targetLine p := by
  obtain ⟨hbclean, hbeq, hpne, hppclean, hosome, honone⟩ := hv
  obtain ⟨pp, hpp⟩ : ∃ pp, p.parent_branch = some pp := by
    cases h : p.parent_branch with
    | none => exact absurd h hpne
    | some x => exact ⟨x, rfl⟩
  have hppD : p.parent_branch.getD p.branch = pp := by rw [hpp]; rfl
  rw [hppD] at hppclean
  obtain ⟨hpne2, hpf, hpb, hpnl⟩ := hppclean
  apply trimChars_of_clean
  · simp [targetLine, frontNonWs, show isWs '-' = false from by decide]
  · have hsplit : targetLine p = ('-' :: '>' :: ' ' ::
        ((match p.origin with
          | some o => o.data ++ ':' :: p.branch.data
          | none => p.branch.data) ++ [' ', '=', '>', ' '])) ++ pp.data := by
      cases ho2 : p.origin <;> simp [targetLine, ho2, hpp]
    rw [hsplit, backNonWs_append _ _ hpne2]
    exact hpb

theorem header_trim_no_arrow (idc titlec : List Char)
    (hlen : idc.length = 40) (hhex : ∀ ch ∈ idc, isLowHex ch = true)
    (hnz : trimChars titlec ≠ []) :
    ¬ ((trimChars (idc ++ ' ' :: titlec)).take 2 = ['-', '>']) := by
  rw [trim_headerLine idc titlec hlen hhex hnz]
  cases idc with
  | nil => simp at hlen
  | cons c0 t0 =>
    intro habs
    simp only [List.cons_append, List.take_succ_cons] at habs
    have hc0 : c0 = '-' := (List.cons_eq_cons.mp habs).1
    have hhx := hhex c0 (List.mem_cons_self ..)
    rw [hc0] at hhx
    exact absurd hhx (by decide)

theorem goLines_cons_target (mainB : String) (l next : List Char)
    (rest : List (List Char)) (last : Option String) (ht : String × String)
    (obp : Option String × String × Option String)
    (hh : headerCaps l = some ht) (harr : next.take 2 = ['-', '>'])
    (htc : targetCaps next = some obp) :
    goLines mainB (l :: next :: rest) last =
      ⟨ht.1, ht.2, some ⟨obp.1, obp.2.1, some (obp.2.2.getD (last.getD mainB))⟩⟩ ::
        goLines mainB rest (some obp.2.1) := by
  simp [goLines, header_not_skip _ _ hh, hh, harr, htc]

theorem goLines_cons_noarrow (mainB : String) (l next : List Char)
    (rest : List (List Char)) (last : Option String) (ht : String × String)
    (hh : headerCaps l = some ht) (harr : ¬ (next.take 2 = ['-', '>'])) :
    goLines mainB (l :: next :: rest) last =
      ⟨ht.1, ht.2, none⟩ :: goLines mainB (next :: rest) last := by
  simp [goLines, header_not_skip _ _ hh, hh, harr]

theorem goLines_single_header (mainB : String) (l : List Char) (last : Option String)
    (ht : String × String) (hh : headerCaps l = some ht) :
    goLines mainB [l] last = [⟨ht.1, ht.2, none⟩] := by
  simp [goLines, header_not_skip _ _ hh, hh]

theorem goLines_render (mainB : String) (cs : List EnhancedCommit) :
    ∀ last, (∀ c ∈ cs, validEC c) →
      goLines mainB ((cs.flatMap commitLines).map trimChars) last =
        cs.map expectedCommit := by
  induction cs with
  | nil => intro last _; rfl
  | cons c cs ih =>
    intro last h
    obtain ⟨hid40, hidhex, htnl, htnz, hnote⟩ := h c (List.mem_cons_self ..)
    have hv2 : ∀ c2 ∈ cs, validEC c2 := fun c2 h2 => h c2 (List.mem_cons_of_mem c h2)
    have hheadtrim : trimChars (headerLine c) = c.id.data ++ ' ' :: rtrim c.title.data :=
      trim_headerLine c.id.data c.title.data hid40 hidhex htnz
    have hheader : headerCaps (c.id.data ++ ' ' :: rtrim c.title.data) =
        some (c.id, String.mk (trimChars c.title.data)) := by
      have h2 := headerCaps_header c.id.data c.title.data hid40 hidhex htnz
      rwa [mk_data] at h2
    cases hpn : pushNote c with
    | some p =>
      have hvp : validPush p := by
        have h2 := hnote (by simp [hpn])
        rwa [hpn] at h2
      obtain ⟨pp, hpp⟩ : ∃ pp, p.parent_branch = some pp := by
        cases h2 : p.parent_branch with
        | none => exact absurd h2 hvp.2.2.1
        | some x => exact ⟨x, rfl⟩
      have hcl : commitLines c = [headerLine c, targetLine p, []] := by
        unfold pushNote at hpn
        cases hn : c.note with
        | none => simp only [hn] at hpn; exact Option.noConfusion hpn
        | some n =>
          simp only [hn] at hpn
          cases hpush : n.push with
          | none => rw [hpush] at hpn; exact Option.noConfusion hpn
          | some q =>
            rw [hpush] at hpn
            cases hpn
            simp [commitLines, hn, hpush]
      have hlines : ((c :: cs).flatMap commitLines).map trimChars =
          trimChars (headerLine c) :: trimChars (targetLine p) :: [] ::
            (cs.flatMap commitLines).map trimChars := by
        simp [hcl, trimChars, ltrim, rtrim]
      have harrow : (targetLine p).take 2 = ['-', '>'] := by
        simp [targetLine]
      rw [hlines, hheadtrim, trim_targetLine p hvp,
        goLines_cons_target mainB _ _ _ last _ (p.origin, p.branch, p.parent_branch)
          hheader harrow (targetCaps_render p hvp),
        goLines_step_none mainB [] _ _ rfl, ih (some p.branch) hv2]
      have hexp : expectedCommit c =
          ⟨c.id, String.mk (trimChars c.title.data),
            some ⟨p.origin, p.branch, p.parent_branch⟩⟩ := by
        simp [expectedCommit, hpn]
      rw [List.map_cons, hexp, hpp]
      rfl
    | none =>
      have hcl : commitLines c = [headerLine c] := by
        unfold pushNote at hpn
        cases hn : c.note with
        | none => simp [commitLines, hn]
        | some n =>
          simp only [hn] at hpn
          cases hpush : n.push with
          | none => simp [commitLines, hn, hpush]
          | some q => rw [hpush] at hpn; cases hpn
      have hexp : expectedCommit c =
          ⟨c.id, String.mk (trimChars c.title.data), none⟩ := by
        simp [expectedCommit, hpn]
      have hlines : ((c :: cs).flatMap commitLines).map trimChars =
          trimChars (headerLine c) :: (cs.flatMap commitLines).map trimChars := by
        simp [hcl]
      rw [hlines, hheadtrim]
      cases cs with
      | nil =>
        rw [show ((([] : List EnhancedCommit)).flatMap commitLines).map trimChars =
          [] from rfl]
        rw [goLines_single_header mainB _ last _ hheader]
        simp [hexp]
      | cons c2 cs2 =>
        obtain ⟨hid402, hidhex2, htnl2, htnz2, hnote2⟩ := hv2 c2 (List.mem_cons_self ..)
        obtain ⟨rest2, hr2⟩ : ∃ r, commitLines c2 = headerLine c2 :: r := ⟨_, rfl⟩
        have hL2 : ((c2 :: cs2).flatMap commitLines).map trimChars =
            trimChars (headerLine c2) ::
              (rest2.map trimChars ++ (cs2.flatMap commitLines).map trimChars) := by
          simp [hr2]
        have hnoarrow : ¬ ((trimChars (headerLine c2)).take 2 = ['-', '>']) :=
          header_trim_no_arrow c2.id.data c2.title.data hid402 hidhex2 htnz2
        rw [hL2, goLines_cons_noarrow mainB _ _ _ last _ hheader hnoarrow, ← hL2,
          ih last hv2]
        simp [hexp]

theorem no_newline_headerLine (c : EnhancedCommit)
    (hhex : ∀ ch ∈ c.id.data, isLowHex ch = true) (htnl : '\n' ∉ c.title.data) :
    '\n' ∉ headerLine c := by
  intro hmem
  simp only [headerLine, List.mem_append, List.mem_cons] at hmem
  rcases hmem with h1 | h1 | h1
  · exact absurd (hhex _ h1) (by decide)
  · exact absurd h1 (by decide)
  · exact htnl h1

theorem no_newline_targetLine (p : Push) (hv : validPush p) : '\n' ∉ targetLine p := by
  obtain ⟨⟨hbne, hbf, hbb, hbnl⟩, hbeq, hpne, hppclean, hosome, honone⟩ := hv
  obtain ⟨pp, hpp⟩ : ∃ pp, p.parent_branch = some pp := by
    cases h : p.parent_branch with
    | none => exact absurd h hpne
    | some x => exact ⟨x, rfl⟩
  have hppD : p.parent_branch.getD p.branch = pp := by rw [hpp]; rfl
  rw [hppD] at hppclean
  obtain ⟨hpne2, hpf, hpb, hpnl⟩ := hppclean
  intro hmem
  cases ho : p.origin with
  | some o =>
    have hoc := hosome (by simp [ho])
    have hoD : p.origin.getD p.branch = o := by rw [ho]; rfl
    rw [hoD] at hoc
    obtain ⟨⟨hone, hof, hob, honl⟩, hocolon⟩ := hoc
    simp only [targetLine, ho, hpp, List.mem_cons, List.mem_append] at hmem
    rcases hmem with h1 | h1 | h1 | (h1 | h1) | h1 | h1 | h1 | h1 | h1
    · exact absurd h1 (by decide)
    · exact absurd h1 (by decide)
    · exact absurd h1 (by decide)
    · exact honl h1
    · rcases h1 with h1 | h1
      · exact absurd h1 (by decide)
      · exact hbnl h1
    · exact absurd h1 (by decide)
    · exact absurd h1 (by decide)
    · exact absurd h1 (by decide)
    · exact absurd h1 (by decide)
    · exact hpnl h1
  | none =>
    simp only [targetLine, ho, hpp, List.mem_cons, List.mem_append] at hmem
    rcases hmem with h1 | h1 | h1 | h1 | h1 | h1 | h1 | h1 | h1
    · exact absurd h1 (by decide)
    · exact absurd h1 (by decide)
    · exact absurd h1 (by decide)
    · exact hbnl h1
    · exact absurd h1 (by decide)
    · exact absurd h1 (by decide)
    · exact absurd h1 (by decide)
    · exact absurd h1 (by decide)
    · exact hpnl h1

theorem commitLines_no_newline (c : EnhancedCommit) (hvc : validEC c) :
    ∀ l ∈ commitLines c, '\n' ∉ l := by
  obtain ⟨hid40, hidhex, htnl, htnz, hnote⟩ := hvc
  intro l hl
  cases hpn : pushNote c with
  | some p =>
    have hvp : validPush p := by
      have h2 := hnote (by simp [hpn])
      rwa [hpn] at h2
    have hcl : commitLines c = [headerLine c, targetLine p, []] := by
      unfold pushNote at hpn
      cases hn : c.note with
      | none => simp only [hn] at hpn; exact Option.noConfusion hpn
      | some n =>
        simp only [hn] at hpn
        cases hpush : n.push with
        | none => rw [hpush] at hpn; exact Option.noConfusion hpn
        | some q =>
          rw [hpush] at hpn
          cases hpn
          simp [commitLines, hn, hpush]
    rw [hcl] at hl
    rcases List.mem_cons.mp hl with h1 | h1
    · subst h1; exact no_newline_headerLine c hidhex htnl
    · rcases List.mem_cons.mp h1 with h2 | h2
      · subst h2; exact no_newline_targetLine p hvp
      · rcases List.mem_cons.mp h2 with h3 | h3
        · subst h3; simp
        · simp at h3
  | none =>
    have hcl : commitLines c = [headerLine c] := by
      unfold pushNote at hpn
      cases hn : c.note with
      | none => simp [commitLines, hn]
      | some n =>
        simp only [hn] at hpn
        cases hpush : n.push with
        | none => simp [commitLines, hn, hpush]
        | some q => rw [hpush] at hpn; exact Option.noConfusion hpn
    rw [hcl] at hl
    rcases List.mem_cons.mp hl with h1 | h1
    · subst h1; exact no_newline_headerLine c hidhex htnl
    · simp at h1

/-- Claim C2 counterexample: the renderer emits the empty document for the
empty commit list, and the parser rejects it (`none`), so a rendered plan is
not always accepted by the parser. -/
theorem c2_counterexample :
    instruction_from_string_with_main_branch (commits_to_string []) "main" = none := by
  decide

/-- Claim C2, amended: for every nonempty list of commits with valid notes
(40-character lowercase-hex ids; newline-free titles with some non-whitespace
character; push targets whose names are nonempty, trimmed and newline-free,
with no `=` in the branch, no `:` in an origin, the parent always populated,
and no `:` in branch or parent when the origin is absent), parsing the
rendered plan with the same main-branch name succeeds and returns the same
commit ids in the same order with the same origin, branch and parent for
every target. -/
theorem c2_roundtrip_amended (mainB : String) (cs : List EnhancedCommit)
    (hne : cs ≠ []) (hv : ∀ c ∈ cs, validEC c) :
    instruction_from_string_with_main_branch (commits_to_string cs) mainB =
      some (cs.map expectedCommit) := by
  have hnl : ∀ l ∈ cs.flatMap commitLines, '\n' ∉ l := by
    intro l hl
    obtain ⟨c, hc, hlc⟩ := List.mem_flatMap.mp hl
    exact commitLines_no_newline c (hv c hc) l hlc
  have hdata : (commits_to_string cs).data =
      (cs.flatMap commitLines).flatMap (fun l => l ++ ['\n']) := by
    rw [commits_to_string_data]
    have h1 : (cs.flatMap fun c => (renderCommit c).data) =
        cs.flatMap (fun c => (commitLines c).flatMap (fun l => l ++ ['\n'])) := by
      congr 1
      funext c
      exact renderCommit_data c
    rw [h1, ← List.flatMap_assoc]
  have hlines : rustLines (commits_to_string cs).data = cs.flatMap commitLines := by
    rw [hdata, rustLines_flat _ hnl]
  unfold instruction_from_string_with_main_branch
  rw [hlines]
  simp only [goLines_render mainB cs none hv]
  cases cs with
  | nil => exact absurd rfl hne
  | cons c cs2 => simp

/-- Claim C2 witness: a concrete one-commit plan with origin and parent
round-trips through the renderer and parser. -/
theorem c2_witness :
    instruction_from_string_with_main_branch
      (commits_to_string
        [⟨"8c14734b80ff0ffb93caefc85553c7c5b05cca1e", "First commit", none,
          some ⟨some ⟨some "upstream", "feature", some "develop"⟩⟩⟩]) "main" =
      some ([⟨"8c14734b80ff0ffb93caefc85553c7c5b05cca1e", "First commit", none,
          some ⟨some ⟨some "upstream", "feature", some "develop"⟩⟩⟩].map
        expectedCommit) :=
  c2_roundtrip_amended "main"
    [⟨"8c14734b80ff0ffb93caefc85553c7c5b05cca1e", "First commit", none,
      some ⟨some ⟨some "upstream", "feature", some "develop"⟩⟩⟩]
    (by decide)
    (by intro c hc
        simp only [List.mem_singleton] at hc
        subst hc
        refine ⟨by decide, by decide, by decide, by decide, fun _ => ?_⟩
        refine ⟨⟨by decide, by decide, by decide, by decide⟩, by decide, by decide,
          ⟨by decide, by decide, by decide, by decide⟩, fun _ => ⟨?_, by decide⟩,
          fun h2 => absurd h2 (by decide)⟩
        exact ⟨by decide, by decide, by decide, by decide⟩)
